import Mathlib

/-!
# photos: identifier registry and resize cache

A verification development over `db.go` (the registry `imageID` / `imagePath`) and
`img.go` (`sizeCopy`, `imgOpen`).

* Go strings are Lean `String`s; their bytes are the UTF-8 encoding.
* `crypto/sha1` is written out after FIPS 180-4 on lists of bytes.
* `float32` values are written as a mantissa and a binary exponent, every operation rounding
  to the nearest value of 24 significant bits, ties to the even mantissa.
* The file system, the limiter channel and the calls made to the image libraries are explicit:
  `sizeCopy` takes a file-system state and the limiter's occupancy and returns its outcome,
  the new file-system state and the list of the steps it took.
-/

namespace Photos

/-- Rotation of a 32-bit word to the left by `n` bits. -/
def rotl32 (x n : Nat) : Nat := ((x <<< n) ||| (x >>> (32 - n))) % 2 ^ 32

/-- The number a list of bytes stands for, the most significant byte first. -/
def be32 (b : List Nat) : Nat :=
  b.foldl (fun acc x => acc * 256 + x) 0

/-- The eight bytes of a 64-bit number, the most significant byte first. -/
def be64Bytes (n : Nat) : List Nat :=
  (List.range 8).map fun i => (n >>> (8 * (7 - i))) % 256

/-- The padding of SHA-1: the bit `1`, zero bytes up to 56 modulo 64, and the length of the
message in bits. -/
def sha1Pad (msg : List Nat) : List Nat :=
  msg ++ [0x80] ++ List.replicate ((119 - msg.length % 64) % 64) 0 ++ be64Bytes (8 * msg.length)

/-- The 80 words of the message schedule of one 64-byte block. -/
def sha1Schedule (block : List Nat) : List Nat :=
  (List.range 64).foldl
    (fun w t =>
      w ++ [rotl32 (w.getD (t + 13) 0 ^^^ w.getD (t + 8) 0 ^^^ w.getD (t + 2) 0 ^^^ w.getD t 0) 1])
    ((List.range 16).map fun i => be32 ((block.drop (4 * i)).take 4))

/-- The five 32-bit words of the SHA-1 state. -/
structure Sha1State where
  a : Nat
  b : Nat
  c : Nat
  d : Nat
  e : Nat
deriving DecidableEq, Repr

/-- The round function of round `t`. -/
def sha1F (t b c d : Nat) : Nat :=
  if t < 20 then (b &&& c) ||| ((b ^^^ (2 ^ 32 - 1)) &&& d)
  else if t < 40 then b ^^^ c ^^^ d
  else if t < 60 then (b &&& c) ||| (b &&& d) ||| (c &&& d)
  else b ^^^ c ^^^ d

/-- The round constant of round `t`. -/
def sha1K (t : Nat) : Nat :=
  if t < 20 then 0x5A827999 else if t < 40 then 0x6ED9EBA1
  else if t < 60 then 0x8F1BBCDC else 0xCA62C1D6

/-- One round of the compression function on the pair of the round number and its word. -/
def sha1Round (s : Sha1State) (tw : Nat × Nat) : Sha1State :=
  { a := (rotl32 s.a 5 + sha1F tw.1 s.b s.c s.d + s.e + sha1K tw.1 + tw.2) % 2 ^ 32
    b := s.a
    c := rotl32 s.b 30
    d := s.c
    e := s.d }

/-- The compression function on one block. -/
def sha1Block (h : Sha1State) (block : List Nat) : Sha1State :=
  let s := (sha1Schedule block).enum.foldl sha1Round h
  { a := (h.a + s.a) % 2 ^ 32
    b := (h.b + s.b) % 2 ^ 32
    c := (h.c + s.c) % 2 ^ 32
    d := (h.d + s.d) % 2 ^ 32
    e := (h.e + s.e) % 2 ^ 32 }

/-- The initial state. -/
def sha1Init : Sha1State :=
  ⟨0x67452301, 0xEFCDAB89, 0x98BADCFE, 0x10325476, 0xC3D2E1F0⟩

/-- The state after the blocks of the padded message `p` numbered by `l`. -/
def sha1Blocks (p : List Nat) (l : List Nat) (h : Sha1State) : Sha1State :=
  l.foldl (fun h i => sha1Block h ((p.drop (64 * i)).take 64)) h

/-- The final state for a message. -/
def sha1State (msg : List Nat) : Sha1State :=
  sha1Blocks (sha1Pad msg) (List.range ((sha1Pad msg).length / 64)) sha1Init

/-- The four bytes of a 32-bit word, the most significant byte first. -/
def wordBytes (w : Nat) : List Nat :=
  [(w >>> 24) % 256, (w >>> 16) % 256, (w >>> 8) % 256, w % 256]

/-- The function `sha1.Sum` of `crypto/sha1` (FIPS 180-4): the 20 bytes of the digest. -/
def sha1Sum (msg : List Nat) : List Nat :=
  let s := sha1State msg
  wordBytes s.a ++ wordBytes s.b ++ wordBytes s.c ++ wordBytes s.d ++ wordBytes s.e

/-- A lower-case hexadecimal digit. -/
def hexDigit (n : Nat) : Char :=
  "0123456789abcdef".data.getD n '0'

/-- What `%x` prints for a byte array: two lower-case hexadecimal digits for each byte. -/
def hexBytes (bs : List Nat) : List Char :=
  bs.flatMap fun b => [hexDigit (b / 16), hexDigit (b % 16)]

/-- The conversion `[]byte(s)`: the UTF-8 bytes of a string. -/
def strBytes (s : String) : List Nat :=
  (s.data.flatMap String.utf8EncodeChar).map UInt8.toNat

/-- The identifier of a path: `fmt.Sprintf("%x", sha1.Sum([]byte(path)))`. -/
def sha1Hex (s : String) : String := ⟨hexBytes (sha1Sum (strBytes s))⟩

/-- A Go `map[string]string`: the value stored under each key, `none` when the key is absent. -/
abbrev StrMap := String → Option String

/-- The map `make(map[string]string)`. -/
def StrMap.empty : StrMap := fun _ => none

/-- The assignment `m[k] = v`. -/
def StrMap.set (m : StrMap) (k v : String) : StrMap :=
  fun k' => if k' = k then some v else m k'

/-- The expression `m[k]`: the empty string when the key is absent. -/
def StrMap.index (m : StrMap) (k : String) : String := (m k).getD ""

/-- The two global maps of `db.go`. -/
structure Registry where
  pathToHash : StrMap
  hashToPath : StrMap

/-- The state `init()` leaves: both maps empty. -/
def init : Registry := ⟨StrMap.empty, StrMap.empty⟩

/-- The function `imageID`: the identifier returned and the maps after the call. -/
def imageID (path : String) (r : Registry) : String × Registry :=
  match r.pathToHash path with
  | some h => (h, r)
  | none =>
    let h := sha1Hex path
    (h, { pathToHash := r.pathToHash.set path h, hashToPath := r.hashToPath.set h path })

/-- The function `imagePath`. -/
def imagePath (r : Registry) (id : String) : String := r.hashToPath.index id

/-- The calls `imageID p` for the paths of a list in turn, from the state `r`: the identifiers
returned and the final state. -/
def runFrom (r : Registry) : List String → List String × Registry
  | [] => ([], r)
  | p :: ps => ((imageID p r).1 :: (runFrom (imageID p r).2 ps).1, (runFrom (imageID p r).2 ps).2)

/-- The state reached from the empty maps by the calls `imageID p` for the paths `ps`. -/
def run (ps : List String) : Registry := (runFrom init ps).2

/-- The identifiers those calls returned. -/
def returned (ps : List String) : List String := (runFrom init ps).1

/-- What holds of the maps once the paths `reg` have been registered. -/
structure RegInv (r : Registry) (reg : List String) : Prop where
  fwd : ∀ p h, r.pathToHash p = some h → h = sha1Hex p ∧ p ∈ reg
  fwd_mem : ∀ p ∈ reg, r.pathToHash p = some (sha1Hex p)
  bwd : ∀ h q, r.hashToPath h = some q → q ∈ reg ∧ sha1Hex q = h
  bwd_mem : ∀ p ∈ reg, ∃ q, r.hashToPath (sha1Hex p) = some q

/-- Each word of the state is below `2 ^ 32`. -/
def Sha1State.Bounded (s : Sha1State) : Prop :=
  s.a < 2 ^ 32 ∧ s.b < 2 ^ 32 ∧ s.c < 2 ^ 32 ∧ s.d < 2 ^ 32 ∧ s.e < 2 ^ 32

/-- The string of `n` letters `a`. -/
def aString (n : Nat) : String := ⟨List.replicate n 'a'⟩

/-- The count of binary digits of `n` with at most `f` steps. -/
def bitsAux : Nat → Nat → Nat
  | 0, _ => 0
  | f + 1, n => if n = 0 then 0 else bitsAux f (n / 2) + 1

/-- Number of binary digits of `n`: `0` for `0`, else the `b` with `2 ^ (b - 1) ≤ n < 2 ^ b`. -/
def bitLen (n : Nat) : Nat := bitsAux n n

/-- A finite non-negative `float32` value, `m * 2 ^ e`. The values `sizeCopy` computes for a
non-negative bounding box are of this kind: it never divides by zero and, for `int` arguments
(below `2 ^ 63`), stays within the exponent range of normal `float32` numbers. -/
structure F32 where
  m : Nat
  e : Int
deriving DecidableEq, Repr

/-- The integer nearest to `n / d`, a tie going to the even one. -/
def roundHalfEven (n d : Nat) : Nat :=
  if 2 * (n % d) < d then n / d
  else if d < 2 * (n % d) then n / d + 1
  else if (n / d) % 2 = 0 then n / d else n / d + 1

/-- The binary exponent `k` of a positive fraction: `2 ^ k ≤ n / d < 2 ^ (k + 1)`. -/
def fracExp (n d : Nat) : Int :=
  if d * 2 ^ bitLen n ≤ n * 2 ^ bitLen d then (bitLen n : Int) - bitLen d
  else (bitLen n : Int) - bitLen d - 1

/-- The `float32` nearest to `n / d`: 24 significant bits, ties to the even mantissa. -/
def F32.round (n d : Nat) : F32 :=
  if n = 0 then ⟨0, 0⟩
  else
    ⟨roundHalfEven (n * 2 ^ (23 - fracExp n d).toNat) (d * 2 ^ (fracExp n d - 23).toNat),
      fracExp n d - 23⟩

/-- The conversion `float32(n)` of a non-negative integer. -/
def F32.ofNat (n : Nat) : F32 := F32.round n 1

/-- The comparison `a < b`. -/
def F32.lt (a b : F32) : Bool :=
  a.m * 2 ^ (a.e - b.e).toNat < b.m * 2 ^ (b.e - a.e).toNat

/-- The quotient `a / b`, rounded, for `b` other than zero. -/
def F32.div (a b : F32) : F32 :=
  F32.round (a.m * 2 ^ (a.e - b.e).toNat) (b.m * 2 ^ (b.e - a.e).toNat)

/-- The product `a * b`, rounded. -/
def F32.mul (a b : F32) : F32 :=
  F32.round (a.m * b.m * 2 ^ (a.e + b.e).toNat) (2 ^ (-(a.e + b.e)).toNat)

/-- The conversion `uint(a)`: the fraction is dropped. -/
def F32.toUint (a : F32) : Nat :=
  a.m * 2 ^ a.e.toNat / 2 ^ (-a.e).toNat

/-- Whether the first `if` of the scaling in `sizeCopy` is taken: `h > float32(maxHeight)`. -/
def heightExceeds (H maxHeight : Nat) : Bool :=
  (F32.ofNat maxHeight).lt (F32.ofNat H)

/-- The values of `w` and `h` after the first `if` of the scaling in `sizeCopy`. -/
def fitHeight (W H maxHeight : Nat) : F32 × F32 :=
  if heightExceeds H maxHeight then
    (((F32.ofNat W).div (F32.ofNat H)).mul (F32.ofNat maxHeight), F32.ofNat maxHeight)
  else (F32.ofNat W, F32.ofNat H)

/-- Whether the second `if` of the scaling in `sizeCopy` is taken: `w > float32(maxWidth)`. -/
def widthExceeds (W H maxWidth maxHeight : Nat) : Bool :=
  (F32.ofNat maxWidth).lt (fitHeight W H maxHeight).1

/-- The values of `w` and `h` after both `if`s of the scaling in `sizeCopy`. -/
def fitBox (W H maxWidth maxHeight : Nat) : F32 × F32 :=
  if widthExceeds W H maxWidth maxHeight then
    (F32.ofNat maxWidth,
      ((fitHeight W H maxHeight).2.div (fitHeight W H maxHeight).1).mul (F32.ofNat maxWidth))
  else fitHeight W H maxHeight

/-- The width and height `sizeCopy` passes to `resize.Resize` for an original of `W` by `H`
pixels. For a negative bound `w` or `h` is negative or not a number, and Go leaves the
conversion of such a value to `uint` to the implementation: `none`. -/
def targetSize (W H : Nat) (maxWidth maxHeight : Int) : Option (Nat × Nat) :=
  if maxWidth < 0 ∨ maxHeight < 0 then none
  else
    some ((fitBox W H maxWidth.toNat maxHeight.toNat).1.toUint,
      (fitBox W H maxWidth.toNat maxHeight.toNat).2.toUint)

/-- The rational number a `float32` value stands for. -/
def F32.val (a : F32) : ℚ := a.m * 2 ^ a.e

/-- The integer `float32(n)` stands for: `n` rounded to 24 significant bits. -/
def roundNat (n : Nat) : Nat :=
  roundHalfEven n (2 ^ (bitLen n - 24)) * 2 ^ (bitLen n - 24)

/-- The digits of `n` in base ten, the last digit first; no digit for `0`. -/
def decRev : Nat → Nat → List Nat
  | 0, _ => []
  | f + 1, n => if n = 0 then [] else (n % 10) :: decRev f (n / 10)

/-- What `%d` prints for a non-negative integer. -/
def formatNat (n : Nat) : List Char :=
  if n = 0 then ['0'] else (decRev n n).reverse.map Nat.digitChar

/-- What `%d` prints for an `int`. -/
def formatInt (i : Int) : List Char :=
  if i < 0 then '-' :: formatNat (-i).toNat else formatNat i.toNat

/-- The artifact path of `sizeCopy`:
`fmt.Sprintf("%s/%x-%dx%d.jpg", cacheDir, sha1.Sum([]byte(origPath)), maxWidth, maxHeight)`. -/
def copyPath (cacheDir origPath : String) (maxWidth maxHeight : Int) : String :=
  cacheDir ++ "/" ++ sha1Hex origPath ++ "-" ++ ⟨formatInt maxWidth⟩ ++ "x" ++
    ⟨formatInt maxHeight⟩ ++ ".jpg"

/-- The scan of `path.Ext` from the end of the path: `acc` is what was passed so far. -/
def extAux : List Char → List Char → List Char
  | [], _ => []
  | c :: rest, acc =>
    if c = '/' then [] else if c = '.' then '.' :: acc else extAux rest (c :: acc)

/-- Go's `path.Ext`: the suffix beginning at the final dot in the final slash-separated
element of the path, empty if there is no dot. -/
def pathExt (p : String) : String := ⟨extAux p.data.reverse []⟩

/-- The errors `os.Open` and `os.Create` report. -/
inductive OsError where
  | notExist
  | permission
deriving DecidableEq, Repr

/-- Go `error` values that pass through `sizeCopy`. -/
inductive GoError where
  /-- The error of `os.Open` or `os.Create` for a path. -/
  | pathError (path : String) (e : OsError)
  /-- The error `fmt.Errorf("unknown image extension: %s", ext)`. -/
  | unknownExtension (ext : String)
  /-- An error of an image decoder or of `jpeg.Encode`. -/
  | codec (msg : String)
deriving DecidableEq, Repr

deriving instance DecidableEq for Except

/-- A file: its content and whether it can be opened for reading. -/
structure File where
  data : List Nat
  readable : Bool
deriving DecidableEq, Repr

/-- The file-system state: the files by path, and for each path the error `os.Create`
would report there (`none` when the file can be created or truncated). -/
structure FS where
  files : String → Option File
  createError : String → Option OsError

/-- The call `os.Open(p)`: the content the opened file reads, or the error. -/
def FS.osOpen (fs : FS) (p : String) : Except OsError (List Nat) :=
  match fs.files p with
  | none => .error .notExist
  | some f => if f.readable then .ok f.data else .error .permission

/-- The file system after `os.Create(p)` succeeded and `data` was written to the file. -/
def FS.write (fs : FS) (p : String) (data : List Nat) : FS :=
  { fs with files := fun q => if q = p then some ⟨data, true⟩ else fs.files q }

/-- A decoded image: `Bounds().Dx()`, `Bounds().Dy()` and its pixels. -/
structure Image where
  dx : Nat
  dy : Nat
  pixels : List Nat
deriving DecidableEq, Repr

/-- The library functions `sizeCopy` and `imgOpen` call that are not part of the repository. -/
structure Lib where
  /-- The function `strings.ToLower`. -/
  toLower : String → String
  /-- The decoders `jpeg.Decode`, `gif.Decode` and `png.Decode` on the bytes of a file. -/
  jpegDecode : List Nat → Except String Image
  gifDecode : List Nat → Except String Image
  pngDecode : List Nat → Except String Image
  /-- The call `resize.Resize(width, height, img, resize.Lanczos3)`. -/
  resize : Nat → Nat → Image → Image
  /-- The call `jpeg.Encode(f2, copy, nil)`: the bytes written to the file and the error. -/
  jpegEncode : Image → List Nat × Option String

/-- The steps of a `sizeCopy` call that can be observed from outside. -/
inductive Event where
  /-- The send `limit <- true` went through: a slot of the limiter is taken. -/
  | acquire
  /-- The deferred receive `<-limit`: the slot is given back. -/
  | release
  | osOpen (path : String)
  | logMaking (copyPath origPath : String)
  | decode (format : String)
  | resize (width height : Nat)
  | osCreate (path : String)
  | jpegEncode
deriving DecidableEq, Repr

/-- The result of a decoder as `imgOpen` returns it. -/
def liftDecode (r : Except String Image) : Except GoError Image :=
  match r with
  | .ok img => .ok img
  | .error msg => .error (.codec msg)

/-- The function `imgOpen`: its result and the steps it took. -/
def imgOpen (lib : Lib) (fs : FS) (p : String) : Except GoError Image × List Event :=
  match fs.osOpen p with
  | .error e => (.error (.pathError p e), [.osOpen p])
  | .ok data =>
    if lib.toLower (pathExt p) = ".jpg" then
      (liftDecode (lib.jpegDecode data), [.osOpen p, .decode ".jpg"])
    else if lib.toLower (pathExt p) = ".gif" then
      (liftDecode (lib.gifDecode data), [.osOpen p, .decode ".gif"])
    else if lib.toLower (pathExt p) = ".png" then
      (liftDecode (lib.pngDecode data), [.osOpen p, .decode ".png"])
    else (.error (.unknownExtension (pathExt p)), [.osOpen p])

/-- The function `isImageExt`. -/
def isImageExt (lib : Lib) (ext : String) : Bool :=
  lib.toLower ext = ".jpg" || lib.toLower ext = ".gif" || lib.toLower ext = ".png"

/-- How a call of `sizeCopy` ends. -/
inductive Outcome where
  /-- The call waits at `limit <- true`: every slot of the limiter is taken. -/
  | blocked
  /-- The call returned `(path, err)`. -/
  | returned (path : String) (err : Option GoError)
  /-- The call panicked with the error of `os.Create`. -/
  | panicked (err : GoError)
  /-- A bound is negative: what `uint(w)`, `uint(h)` are is left to the implementation. -/
  | unspecified
deriving DecidableEq, Repr

/-- What a call of `sizeCopy` leaves behind. -/
structure Result where
  outcome : Outcome
  fs : FS
  /-- Slots of the limiter taken after the call. -/
  used : Nat
  events : List Event

/-- The part of `sizeCopy` after `imgOpen` returned an image: scale, resize, create, encode. -/
def makeCopy (lib : Lib) (copy : String) (maxWidth maxHeight : Int) (used : Nat)
    (fs : FS) (img : Image) (pre : List Event) : Result :=
  match targetSize img.dx img.dy maxWidth maxHeight with
  | none => ⟨.unspecified, fs, used, pre ++ [.release]⟩
  | some (w, h) =>
    match fs.createError copy with
    | some e =>
      ⟨.panicked (.pathError copy e), fs, used, pre ++ [.resize w h, .osCreate copy, .release]⟩
    | none =>
      ⟨.returned copy ((lib.jpegEncode (lib.resize w h img)).2.map GoError.codec),
        fs.write copy (lib.jpegEncode (lib.resize w h img)).1, used,
        pre ++ [.resize w h, .osCreate copy, .jpegEncode, .release]⟩

/-- The function `sizeCopy`, called with `used` of the `cap` slots of `limit` taken. -/
def sizeCopy (lib : Lib) (cacheDir origPath : String) (maxWidth maxHeight : Int)
    (cap used : Nat) (fs : FS) : Result :=
  if cap ≤ used then ⟨.blocked, fs, used, []⟩
  else
    match fs.osOpen (copyPath cacheDir origPath maxWidth maxHeight) with
    | .ok _ =>
      ⟨.returned (copyPath cacheDir origPath maxWidth maxHeight) none, fs, used,
        [.acquire, .osOpen (copyPath cacheDir origPath maxWidth maxHeight), .release]⟩
    | .error .notExist =>
      match imgOpen lib fs origPath with
      | (.error err, evs) =>
        ⟨.returned "" (some err), fs, used,
          [.acquire, .osOpen (copyPath cacheDir origPath maxWidth maxHeight),
            .logMaking (copyPath cacheDir origPath maxWidth maxHeight) origPath] ++ evs ++
            [.release]⟩
      | (.ok img, evs) =>
        makeCopy lib (copyPath cacheDir origPath maxWidth maxHeight) maxWidth maxHeight used fs
          img
          ([.acquire, .osOpen (copyPath cacheDir origPath maxWidth maxHeight),
            .logMaking (copyPath cacheDir origPath maxWidth maxHeight) origPath] ++ evs)
    | .error e =>
      ⟨.returned "" (some (.pathError (copyPath cacheDir origPath maxWidth maxHeight) e)), fs,
        used, [.acquire, .osOpen (copyPath cacheDir origPath maxWidth maxHeight), .release]⟩

/-- A stand-in for the libraries: ASCII lower-casing, decoders that accept any non-empty file as
a 4000 by 3000 image, a resizer that returns an image of the size asked for, and an encoder that
writes three bytes. -/
def demoLib : Lib where
  toLower := fun s => ⟨s.data.map Char.toLower⟩
  jpegDecode := fun d => if d = [] then .error "unexpected EOF" else .ok ⟨4000, 3000, d⟩
  gifDecode := fun d => if d = [] then .error "unexpected EOF" else .ok ⟨4000, 3000, d⟩
  pngDecode := fun d => if d = [] then .error "unexpected EOF" else .ok ⟨4000, 3000, d⟩
  resize := fun w h img => ⟨w, h, img.pixels⟩
  jpegEncode := fun _ => ([255, 216, 255], none)

/-- A file system that holds the readable files `/photos/a.jpg` and `/photos/a.bmp` and lets
files be created anywhere. -/
def demoFS : FS where
  files := fun p =>
    if p = "/photos/a.jpg" ∨ p = "/photos/a.bmp" then some ⟨[1, 2, 3], true⟩ else none
  createError := fun _ => none

/-- A file system that holds `/photos/a.bmp` as a file that cannot be opened for reading. -/
def lockedFS : FS where
  files := fun p => if p = "/photos/a.bmp" then some ⟨[1, 2, 3], false⟩ else none
  createError := fun _ => none

/-- A file system with no file at all. -/
def emptyFS : FS where
  files := fun _ => none
  createError := fun _ => none

/-- The file system `demoFS` with the 300x200 artifact of `/photos/a.jpg` in place. -/
def hitFS : FS := demoFS.write (copyPath "cache" "/photos/a.jpg" 300 200) [255, 216, 255]

theorem regInv_init : RegInv init [] := by
  constructor <;> simp [init, StrMap.empty]

theorem imageID_fst {r : Registry} {reg : List String} (hr : RegInv r reg) (p : String) :
    (imageID p r).1 = sha1Hex p := by
  unfold imageID
  cases h : r.pathToHash p with
  | none => rfl
  | some v => exact (hr.fwd p v h).1

theorem imageID_known {r : Registry} {reg : List String} (hr : RegInv r reg) {p : String}
    (hp : p ∈ reg) : imageID p r = (sha1Hex p, r) := by
  unfold imageID
  rw [hr.fwd_mem p hp]

theorem regInv_step {r : Registry} {reg : List String} (hr : RegInv r reg) (p : String) :
    RegInv (imageID p r).2 (reg ++ [p]) := by
  unfold imageID
  cases h : r.pathToHash p with
  | some v =>
    have hp := (hr.fwd p v h).2
    exact ⟨fun q k hq => ⟨(hr.fwd q k hq).1, List.mem_append_left _ (hr.fwd q k hq).2⟩,
      fun q hq => by
        rcases List.mem_append.1 hq with hq | hq
        · exact hr.fwd_mem q hq
        · rw [List.mem_singleton.1 hq]; exact hr.fwd_mem p hp,
      fun k q hq => ⟨List.mem_append_left _ (hr.bwd k q hq).1, (hr.bwd k q hq).2⟩,
      fun q hq => by
        rcases List.mem_append.1 hq with hq | hq
        · exact hr.bwd_mem q hq
        · rw [List.mem_singleton.1 hq]; exact hr.bwd_mem p hp⟩
  | none =>
    refine ⟨?_, ?_, ?_, ?_⟩
    · intro q k hq
      simp only [StrMap.set] at hq
      split at hq
      · next e => subst e; simp at hq; simp [hq]
      · exact ⟨(hr.fwd q k hq).1, List.mem_append_left _ (hr.fwd q k hq).2⟩
    · intro q hq
      simp only [StrMap.set]
      split
      · next e => rw [e]
      · next e =>
        rcases List.mem_append.1 hq with hq | hq
        · exact hr.fwd_mem q hq
        · exact absurd (List.mem_singleton.1 hq) e
    · intro k q hq
      simp only [StrMap.set] at hq
      split at hq
      · next e => subst e; simp at hq; simp [hq]
      · exact ⟨List.mem_append_left _ (hr.bwd k q hq).1, (hr.bwd k q hq).2⟩
    · intro q hq
      simp only [StrMap.set]
      split
      · exact ⟨p, rfl⟩
      · next e =>
        rcases List.mem_append.1 hq with hq | hq
        · exact hr.bwd_mem q hq
        · exact absurd (congrArg sha1Hex (List.mem_singleton.1 hq)) e

theorem regInv_runFrom {r : Registry} {reg : List String} (hr : RegInv r reg) (ps : List String) :
    RegInv (runFrom r ps).2 (reg ++ ps) ∧ (runFrom r ps).1 = ps.map sha1Hex := by
  induction ps generalizing r reg with
  | nil => simpa [runFrom] using hr
  | cons p ps ih =>
    have h := ih (regInv_step hr p)
    simp only [runFrom, List.map_cons, imageID_fst hr p]
    refine ⟨?_, by rw [h.2]⟩
    have := h.1
    simpa using this

theorem regInv_run (ps : List String) : RegInv (run ps) ps := by
  simpa [run] using (regInv_runFrom regInv_init ps).1

theorem returned_eq (ps : List String) : returned ps = ps.map sha1Hex :=
  (regInv_runFrom regInv_init ps).2

theorem sha1Block_bounded (h : Sha1State) (block : List Nat) : (sha1Block h block).Bounded := by
  have hp : 0 < 2 ^ 32 := by norm_num
  exact ⟨Nat.mod_lt _ hp, Nat.mod_lt _ hp, Nat.mod_lt _ hp, Nat.mod_lt _ hp, Nat.mod_lt _ hp⟩

theorem sha1Init_bounded : sha1Init.Bounded := by
  unfold Sha1State.Bounded sha1Init
  norm_num

theorem sha1Blocks_cons (p : List Nat) (i : Nat) (l : List Nat) (h : Sha1State) :
    sha1Blocks p (i :: l) h = sha1Blocks p l (sha1Block h ((p.drop (64 * i)).take 64)) := by
  simp only [sha1Blocks, List.foldl_cons]

theorem sha1Blocks_bounded (p : List Nat) (l : List Nat) (h : Sha1State) (hh : h.Bounded) :
    (sha1Blocks p l h).Bounded := by
  induction l generalizing h with
  | nil => simpa only [sha1Blocks, List.foldl_nil] using hh
  | cons i l ih =>
    rw [sha1Blocks_cons]
    exact ih _ (sha1Block_bounded h _)

theorem sha1State_bounded (msg : List Nat) : (sha1State msg).Bounded := by
  unfold sha1State
  exact sha1Blocks_bounded _ _ _ sha1Init_bounded

theorem aString_injective : Function.Injective aString := by
  intro n m h
  have := congrArg (fun s => s.data.length) h
  simpa [aString] using this

theorem sha1State_finite_range : (Set.range fun s : String => sha1State (strBytes s)).Finite := by
  have hfin : (Set.Iio (2 ^ 32) ×ˢ Set.Iio (2 ^ 32) ×ˢ Set.Iio (2 ^ 32) ×ˢ Set.Iio (2 ^ 32) ×ˢ
      Set.Iio (2 ^ 32) : Set (ℕ × ℕ × ℕ × ℕ × ℕ)).Finite :=
    (Set.finite_Iio _).prod ((Set.finite_Iio _).prod ((Set.finite_Iio _).prod
      ((Set.finite_Iio _).prod (Set.finite_Iio _))))
  refine (hfin.image fun t => (⟨t.1, t.2.1, t.2.2.1, t.2.2.2.1, t.2.2.2.2⟩ : Sha1State)).subset ?_
  rintro _ ⟨s, rfl⟩
  obtain ⟨ha, hb, hc, hd, he⟩ := sha1State_bounded (strBytes s)
  exact ⟨((sha1State (strBytes s)).a, (sha1State (strBytes s)).b, (sha1State (strBytes s)).c,
    (sha1State (strBytes s)).d, (sha1State (strBytes s)).e), ⟨ha, hb, hc, hd, he⟩, rfl⟩

theorem sha1Hex_collision : ∃ p q : String, p ≠ q ∧ sha1Hex p = sha1Hex q := by
  obtain ⟨n, -, m, -, hnm, h⟩ := Set.infinite_univ.exists_ne_map_eq_of_mapsTo
    (f := fun n : ℕ => sha1State (strBytes (aString n))) (s := Set.univ)
    (t := Set.range fun s : String => sha1State (strBytes s))
    (fun n _ => ⟨aString n, rfl⟩) sha1State_finite_range
  refine ⟨aString n, aString m, fun e => hnm (aString_injective e), ?_⟩
  have h' : sha1State (strBytes (aString n)) = sha1State (strBytes (aString m)) := h
  simp only [sha1Hex, sha1Sum, h']

theorem runFrom_append (r : Registry) (a b : List String) :
    (runFrom r (a ++ b)).2 = (runFrom (runFrom r a).2 b).2 := by
  induction a generalizing r with
  | nil => rfl
  | cons x a ih =>
    show (runFrom (imageID x r).2 (a ++ b)).2 = (runFrom (runFrom (imageID x r).2 a).2 b).2
    exact ih _

theorem imageID_fresh {r : Registry} {reg : List String} (hr : RegInv r reg) {p : String}
    (hp : p ∉ reg) : (imageID p r).2.hashToPath (sha1Hex p) = some p := by
  unfold imageID
  cases h : r.pathToHash p with
  | some v => exact absurd (hr.fwd p v h).2 hp
  | none => simp [StrMap.set]

theorem imageID_keeps (r : Registry) (p q : String) (hq : sha1Hex q = sha1Hex p → q = p)
    (h : r.hashToPath (sha1Hex p) = some p) : (imageID q r).2.hashToPath (sha1Hex p) = some p := by
  unfold imageID
  cases r.pathToHash q with
  | some v => exact h
  | none =>
    simp only [StrMap.set]
    split
    · next e => rw [hq e.symm]
    · exact h

theorem runFrom_keeps (r : Registry) (p : String) (post : List String)
    (hpost : ∀ q ∈ post, sha1Hex q = sha1Hex p → q = p)
    (h : r.hashToPath (sha1Hex p) = some p) : (runFrom r post).2.hashToPath (sha1Hex p) = some p := by
  induction post generalizing r with
  | nil => exact h
  | cons q post ih =>
    simp only [runFrom]
    exact ih _ (fun x hx => hpost x (List.mem_cons_of_mem _ hx))
      (imageID_keeps r p q (hpost q (List.mem_cons_self _ _)) h)

/-- C1 (amended): in the registry reached from the empty maps by registering `pre`, then `p`
for the first time, then `post`, where no path of `post` other than `p` has the SHA-1 digest
of `p`, `imageID p` returns an identifier that `imagePath` resolves to `p`. -/
theorem C1_resolve_registered (pre post : List String) (p : String) (hpre : p ∉ pre)
    (hpost : ∀ q ∈ post, sha1Hex q = sha1Hex p → q = p) :
    imagePath (imageID p (run (pre ++ p :: post))).2 (imageID p (run (pre ++ p :: post))).1 = p := by
  have hinv := regInv_run (pre ++ p :: post)
  rw [imageID_known hinv (by simp)]
  have h1 : (run (pre ++ p :: post)).hashToPath (sha1Hex p) = some p := by
    unfold run
    rw [runFrom_append]
    simp only [runFrom]
    exact runFrom_keeps _ p post hpost (imageID_fresh (regInv_runFrom regInv_init pre).1 (by simpa using hpre))
  simp [imagePath, StrMap.index, h1]

set_option maxRecDepth 100000 in
/-- C1 (witness): `/photos/a.jpg` registered between two other paths. -/
theorem C1_resolve_registered_witness :
    imagePath (imageID "/photos/a.jpg" (run (["/photos/b.jpg"] ++ "/photos/a.jpg" :: ["/photos/c.jpg"]))).2
      (imageID "/photos/a.jpg" (run (["/photos/b.jpg"] ++ "/photos/a.jpg" :: ["/photos/c.jpg"]))).1
      = "/photos/a.jpg" :=
  C1_resolve_registered ["/photos/b.jpg"] ["/photos/c.jpg"] "/photos/a.jpg" (by decide) (by decide)

/-- C1 (counterexample): there are two paths `p`, `q` such that after `imageID p` and
`imageID q` the identifier of `p` no longer resolves to `p`. -/
theorem C1_collision_reassigns :
    ∃ p q : String,
      imagePath (imageID p (run [p, q])).2 (imageID p (run [p, q])).1 ≠ p := by
  obtain ⟨p, q, hpq, h⟩ := sha1Hex_collision
  refine ⟨p, q, ?_⟩
  rw [imageID_known (regInv_run [p, q]) (by simp)]
  have hq : ¬ q = p := fun e => hpq e.symm
  have : (run [p, q]).hashToPath (sha1Hex p) = some q := by
    simp [run, runFrom, imageID, init, StrMap.empty, StrMap.set, hq, h]
  simp [imagePath, StrMap.index, this, hq]

/-- C2: in every reachable registry state `run ps`, a call `imageID p`, any further calls `qs`
and a second call `imageID p` return the same identifier, and a second consecutive call
returns the same identifier and leaves both maps as they are. -/
theorem C2_imageID_idempotent (ps qs : List String) (p : String) :
    (imageID p (runFrom (imageID p (run ps)).2 qs).2).1 = (imageID p (run ps)).1 ∧
    imageID p (imageID p (run ps)).2 = ((imageID p (run ps)).1, (imageID p (run ps)).2) := by
  have h0 := regInv_run ps
  have h1 := regInv_step h0 p
  have h2 := (regInv_runFrom h1 qs).1
  refine ⟨by rw [imageID_fst h2, imageID_fst h0], ?_⟩
  rw [imageID_known h1 (by simp), imageID_fst h0]

set_option maxRecDepth 100000 in
/-- C3 (counterexample): after `imageID ""` the identifier it returned resolves to the empty
string, the same result as for an identifier that was never handed out. -/
theorem C3_empty_path_indistinguishable :
    "da39a3ee5e6b4b0d3255bfef95601890afd80709" ∈ returned [""] ∧
    imagePath (run [""]) "da39a3ee5e6b4b0d3255bfef95601890afd80709" = "" := by
  decide

/-- C3 (amended): in a registry state reached by registering non-empty paths only,
`imagePath id` is the empty string exactly when `id` was returned by none of the earlier
`imageID` calls. -/
theorem C3_notFound_iff (ps : List String) (id : String) (hne : ∀ p ∈ ps, p ≠ "") :
    imagePath (run ps) id = "" ↔ id ∉ returned ps := by
  have hinv := regInv_run ps
  rw [returned_eq]
  constructor
  · intro h hmem
    obtain ⟨p, hp, rfl⟩ := List.mem_map.1 hmem
    obtain ⟨q, hq⟩ := hinv.bwd_mem p hp
    have : q = "" := by simpa [imagePath, StrMap.index, hq] using h
    exact hne q (hinv.bwd _ q hq).1 this
  · intro h
    cases hq : (run ps).hashToPath id with
    | none => simp [imagePath, StrMap.index, hq]
    | some q =>
      exact absurd (List.mem_map.2 ⟨q, (hinv.bwd _ q hq).1, (hinv.bwd _ q hq).2⟩) h

set_option maxRecDepth 100000 in
/-- C3 (witness): one registered path, one identifier that was handed out and one that was not. -/
theorem C3_notFound_iff_witness :
    (∀ p ∈ ["/photos/a.jpg"], p ≠ "") ∧
    (imagePath (run ["/photos/a.jpg"]) "0000" = "" ↔ "0000" ∉ returned ["/photos/a.jpg"]) :=
  ⟨by decide, C3_notFound_iff ["/photos/a.jpg"] "0000" (by decide)⟩


set_option maxRecDepth 100000 in
/-- The digest of the FIPS 180 test message `abc`. -/
theorem sha1Hex_abc : sha1Hex "abc" = "a9993e364706816aba3e25717850c26c9cd0d89d" := by
  decide

theorem bitsAux_zero (f : Nat) : bitsAux f 0 = 0 := by
  cases f <;> simp [bitsAux]

theorem bitsAux_spec (f n : Nat) (h : n ≤ f) :
    n < 2 ^ bitsAux f n ∧ (0 < n → 2 ^ bitsAux f n ≤ 2 * n) := by
  induction f generalizing n with
  | zero =>
    have : n = 0 := by omega
    subst this
    simp [bitsAux]
  | succ f ih =>
    by_cases hn : n = 0
    · subst hn; simp [bitsAux]
    · have hlt : n / 2 ≤ f := by omega
      obtain ⟨h1, h2⟩ := ih (n / 2) hlt
      simp only [bitsAux, hn, if_false, pow_succ]
      refine ⟨by omega, fun _ => ?_⟩
      by_cases h0 : n / 2 = 0
      · rw [h0, bitsAux_zero]; simp; omega
      · have := h2 (Nat.pos_of_ne_zero h0)
        omega

theorem bitLen_zero : bitLen 0 = 0 := bitsAux_zero 0

theorem lt_two_pow_bitLen (n : Nat) : n < 2 ^ bitLen n :=
  (bitsAux_spec n n le_rfl).1

theorem two_pow_bitLen_le (n : Nat) (h : 0 < n) : 2 ^ bitLen n ≤ 2 * n :=
  (bitsAux_spec n n le_rfl).2 h

theorem bitLen_pos (n : Nat) (h : 0 < n) : 0 < bitLen n := by
  by_contra h0
  have := lt_two_pow_bitLen n
  rw [Nat.eq_zero_of_not_pos h0] at this
  simp at this
  omega

theorem bitLen_mono {n m : Nat} (h : n ≤ m) : bitLen n ≤ bitLen m := by
  by_cases hn : n = 0
  · subst hn; rw [bitLen_zero]; exact Nat.zero_le _
  · by_contra hlt
    have h1 : 2 ^ (bitLen m + 1) ≤ 2 ^ bitLen n := Nat.pow_le_pow_right (by norm_num) (by omega)
    have h2 := two_pow_bitLen_le n (Nat.pos_of_ne_zero hn)
    have h3 := lt_two_pow_bitLen m
    rw [pow_succ] at h1
    omega

theorem bitLen_le_of_lt_pow {n k : Nat} (h : n < 2 ^ k) : bitLen n ≤ k := by
  by_cases hn : n = 0
  · subst hn; rw [bitLen_zero]; exact Nat.zero_le _
  · by_contra hlt
    have h1 : 2 ^ (k + 1) ≤ 2 ^ bitLen n := Nat.pow_le_pow_right (by norm_num) (by omega)
    have h2 := two_pow_bitLen_le n (Nat.pos_of_ne_zero hn)
    rw [pow_succ] at h1
    omega

theorem roundHalfEven_one (n : Nat) : roundHalfEven n 1 = n := by
  simp [roundHalfEven, Nat.mod_one]

theorem roundHalfEven_mul (k d : Nat) (hd : 0 < d) : roundHalfEven (k * d) d = k := by
  simp [roundHalfEven, Nat.mul_mod_left, Nat.mul_div_cancel _ hd, hd]

theorem roundHalfEven_ge_div (n d : Nat) : n / d ≤ roundHalfEven n d := by
  unfold roundHalfEven
  split_ifs <;> omega

theorem roundHalfEven_le_div_succ (n d : Nat) : roundHalfEven n d ≤ n / d + 1 := by
  unfold roundHalfEven
  split_ifs <;> omega

theorem roundHalfEven_mono {n n' d : Nat} (h : n ≤ n') :
    roundHalfEven n d ≤ roundHalfEven n' d := by
  have hq : n / d ≤ n' / d := Nat.div_le_div_right h
  rcases Nat.lt_or_ge (n / d) (n' / d) with hlt | hge
  · calc roundHalfEven n d ≤ n / d + 1 := roundHalfEven_le_div_succ n d
      _ ≤ n' / d := hlt
      _ ≤ roundHalfEven n' d := roundHalfEven_ge_div n' d
  · have heq : n / d = n' / d := le_antisymm hq hge
    have hr : n % d ≤ n' % d := by
      have h1 := Nat.div_add_mod n d
      have h2 := Nat.div_add_mod n' d
      rw [heq] at h1
      omega
    unfold roundHalfEven
    rw [heq]
    split_ifs <;> omega

theorem roundHalfEven_le_of_le_mul {n d k : Nat} (hd : 0 < d) (h : n ≤ k * d) :
    roundHalfEven n d ≤ k := by
  have := roundHalfEven_mono (d := d) h
  rwa [roundHalfEven_mul k d hd] at this

theorem le_roundHalfEven_of_mul_le {n d k : Nat} (hd : 0 < d) (h : k * d ≤ n) :
    k ≤ roundHalfEven n d := by
  have := roundHalfEven_mono (d := d) h
  rwa [roundHalfEven_mul k d hd] at this

theorem bitLen_one : bitLen 1 = 1 := by decide

theorem fracExp_one (n : Nat) (h : 0 < n) : fracExp n 1 = (bitLen n : Int) - 1 := by
  have h2 := two_pow_bitLen_le n h
  simp only [fracExp, bitLen_one, pow_one, one_mul]
  rw [if_pos (by omega)]
  norm_num

theorem ofNat_eq (n : Nat) (h : 0 < n) :
    F32.ofNat n =
      ⟨roundHalfEven (n * 2 ^ (24 - bitLen n)) (2 ^ (bitLen n - 24)), (bitLen n : Int) - 24⟩ := by
  have e1 : (23 - ((bitLen n : Int) - 1)).toNat = 24 - bitLen n := by omega
  have e2 : ((bitLen n : Int) - 1 - 23).toNat = bitLen n - 24 := by omega
  have e3 : (bitLen n : Int) - 1 - 23 = (bitLen n : Int) - 24 := by omega
  simp only [F32.ofNat, F32.round, fracExp_one n h, if_neg (Nat.pos_iff_ne_zero.1 h), e1, e2,
    one_mul]
  rw [e3]

theorem ofNat_zero : F32.ofNat 0 = ⟨0, 0⟩ := by
  simp [F32.ofNat, F32.round]

theorem roundNat_zero : roundNat 0 = 0 := by
  simp [roundNat, bitLen_zero, roundHalfEven_one]

theorem val_ofNat (n : Nat) : (F32.ofNat n).val = (roundNat n : ℚ) := by
  rcases Nat.eq_zero_or_pos n with rfl | h
  · rw [ofNat_zero, roundNat_zero]; simp [F32.val]
  rw [ofNat_eq n h]
  rcases Nat.lt_or_ge 24 (bitLen n) with hb | hb
  · have e1 : 24 - bitLen n = 0 := by omega
    have e2 : (bitLen n : Int) - 24 = ((bitLen n - 24 : Nat) : Int) := by omega
    simp only [F32.val, roundNat, e1, pow_zero, mul_one, e2, zpow_natCast]
    push_cast
    ring
  · have e1 : bitLen n - 24 = 0 := by omega
    have e2 : (bitLen n : Int) - 24 = -((24 - bitLen n : Nat) : Int) := by omega
    simp only [F32.val, roundNat, e1, pow_zero, mul_one, roundHalfEven_one, e2, zpow_neg,
      zpow_natCast]
    push_cast
    field_simp

theorem toUint_ofNat (n : Nat) : (F32.ofNat n).toUint = roundNat n := by
  rcases Nat.eq_zero_or_pos n with rfl | h
  · rw [ofNat_zero, roundNat_zero]; simp [F32.toUint]
  rw [ofNat_eq n h]
  rcases Nat.lt_or_ge 24 (bitLen n) with hb | hb
  · have e1 : 24 - bitLen n = 0 := by omega
    have e2 : ((bitLen n : Int) - 24).toNat = bitLen n - 24 := by omega
    have e3 : (-((bitLen n : Int) - 24)).toNat = 0 := by omega
    simp only [F32.toUint, roundNat, e1, e2, e3, pow_zero, mul_one, Nat.div_one]
  · have e1 : bitLen n - 24 = 0 := by omega
    have e2 : ((bitLen n : Int) - 24).toNat = 0 := by omega
    have e3 : (-((bitLen n : Int) - 24)).toNat = 24 - bitLen n := by omega
    simp only [F32.toUint, roundNat, e1, e2, e3, pow_zero, mul_one, roundHalfEven_one]
    exact Nat.mul_div_cancel _ (by positivity)

theorem roundNat_mono {n m : Nat} (h : n ≤ m) : roundNat n ≤ roundNat m := by
  rcases Nat.eq_zero_or_pos n with rfl | hn
  · rw [roundNat_zero]; exact Nat.zero_le _
  have hm : 0 < m := lt_of_lt_of_le hn h
  have hb := bitLen_mono h
  rcases Nat.eq_or_lt_of_le (Nat.sub_le_sub_right hb 24) with he | hlt
  · unfold roundNat
    rw [he]
    exact Nat.mul_le_mul_right _ (roundHalfEven_mono h)
  · have hab : bitLen n < bitLen m := by omega
    have hpos : ∀ k, 0 < 2 ^ k := fun k => by positivity
    have up : roundNat n ≤ 2 ^ bitLen n := by
      unfold roundNat
      have hsplit : 2 ^ bitLen n = 2 ^ (bitLen n - (bitLen n - 24)) * 2 ^ (bitLen n - 24) := by
        rw [← pow_add]; congr 1; omega
      have hle : n ≤ 2 ^ (bitLen n - (bitLen n - 24)) * 2 ^ (bitLen n - 24) := by
        rw [← hsplit]; exact (lt_two_pow_bitLen n).le
      calc roundHalfEven n (2 ^ (bitLen n - 24)) * 2 ^ (bitLen n - 24)
          ≤ 2 ^ (bitLen n - (bitLen n - 24)) * 2 ^ (bitLen n - 24) :=
            Nat.mul_le_mul_right _ (roundHalfEven_le_of_le_mul (hpos _) hle)
        _ = 2 ^ bitLen n := hsplit.symm
    have lo : 2 ^ (bitLen m - 1) ≤ roundNat m := by
      unfold roundNat
      have hsplit : 2 ^ (bitLen m - 1) = 2 ^ (bitLen m - 1 - (bitLen m - 24)) * 2 ^ (bitLen m - 24) := by
        rw [← pow_add]; congr 1; omega
      have hge : 2 ^ (bitLen m - 1 - (bitLen m - 24)) * 2 ^ (bitLen m - 24) ≤ m := by
        rw [← hsplit]
        have := two_pow_bitLen_le m hm
        have e : 2 ^ bitLen m = 2 * 2 ^ (bitLen m - 1) := by
          rw [← pow_succ']; congr 1; omega
        omega
      calc 2 ^ (bitLen m - 1) = 2 ^ (bitLen m - 1 - (bitLen m - 24)) * 2 ^ (bitLen m - 24) := hsplit
        _ ≤ roundHalfEven m (2 ^ (bitLen m - 24)) * 2 ^ (bitLen m - 24) :=
            Nat.mul_le_mul_right _ (le_roundHalfEven_of_mul_le (hpos _) hge)
    calc roundNat n ≤ 2 ^ bitLen n := up
      _ ≤ 2 ^ (bitLen m - 1) := Nat.pow_le_pow_right (by norm_num) (by omega)
      _ ≤ roundNat m := lo

theorem roundNat_exact {n : Nat} (h : n ≤ 2 ^ 24) : roundNat n = n := by
  rcases Nat.eq_or_lt_of_le h with rfl | hlt
  · decide
  · have := bitLen_le_of_lt_pow hlt
    have e : bitLen n - 24 = 0 := by omega
    simp [roundNat, e, roundHalfEven_one]

theorem F32.lt_iff (a b : F32) : a.lt b = true ↔ a.val < b.val := by
  have h2 : (0 : ℚ) < 2 := by norm_num
  simp only [F32.lt, decide_eq_true_eq, F32.val]
  rcases le_total a.e b.e with h | h
  · obtain ⟨d, hd⟩ := Int.le.dest h
    have e1 : (a.e - b.e).toNat = 0 := by omega
    have e2 : (b.e - a.e).toNat = d := by omega
    rw [e1, e2, pow_zero, mul_one, ← hd, zpow_add₀ h2.ne', zpow_natCast]
    rw [← mul_assoc, mul_comm (b.m : ℚ), mul_assoc ((2:ℚ) ^ a.e), mul_comm ((2:ℚ)^a.e),
      mul_lt_mul_right (zpow_pos h2 _)]
    exact_mod_cast Iff.rfl
  · obtain ⟨d, hd⟩ := Int.le.dest h
    have e1 : (a.e - b.e).toNat = d := by omega
    have e2 : (b.e - a.e).toNat = 0 := by omega
    rw [e1, e2, pow_zero, mul_one, ← hd, zpow_add₀ h2.ne', zpow_natCast]
    rw [← mul_assoc, mul_comm (a.m : ℚ), mul_assoc ((2:ℚ) ^ b.e), mul_comm ((2:ℚ)^b.e),
      mul_lt_mul_right (zpow_pos h2 _)]
    exact_mod_cast Iff.rfl

theorem ofNat_lt_ofNat (a b : Nat) : (F32.ofNat a).lt (F32.ofNat b) = true ↔ roundNat a < roundNat b := by
  rw [F32.lt_iff, val_ofNat, val_ofNat]
  exact_mod_cast Iff.rfl

theorem ofNat_not_lt {n m : Nat} (h : n ≤ m) : (F32.ofNat m).lt (F32.ofNat n) = false := by
  rw [Bool.eq_false_iff, Ne, ofNat_lt_ofNat]
  exact not_lt.2 (roundNat_mono h)

theorem fitBox_inside (W H maxWidth maxHeight : Nat) (hW : W ≤ maxWidth) (hH : H ≤ maxHeight) :
    heightExceeds H maxHeight = false ∧ widthExceeds W H maxWidth maxHeight = false ∧
      fitBox W H maxWidth maxHeight = (F32.ofNat W, F32.ofNat H) := by
  have h1 : heightExceeds H maxHeight = false := ofNat_not_lt hH
  have h2 : fitHeight W H maxHeight = (F32.ofNat W, F32.ofNat H) := by
    simp [fitHeight, h1]
  have h3 : widthExceeds W H maxWidth maxHeight = false := by
    simp only [widthExceeds, h2]
    exact ofNat_not_lt hW
  exact ⟨h1, h3, by simp [fitBox, h3, h2]⟩

set_option maxRecDepth 100000 in
/-- C4 (the code at the failing input): for an original of 1 by 33554435 pixels and the
bounding box 1 by 33554435, `sizeCopy` asks the resizer for a height of 33554436, which
exceeds `maxHeight`. -/
theorem C4_height_exceeds_box :
    targetSize 1 33554435 1 33554435 = some (1, 33554436) := by
  decide

set_option maxRecDepth 100000 in
/-- C5 (counterexample): for a 4000x3000 original and the box 300x200 the target dimensions
are not 267x200. -/
theorem C5_not_267 : targetSize 4000 3000 300 200 ≠ some (267, 200) := by
  decide

set_option maxRecDepth 100000 in
/-- C5 (amended): for a 4000x3000 original and the box 300x200 the height-bound step is taken,
the width-bound step is not, and the target dimensions are exactly 266x200. -/
theorem C5_target_266_200 :
    heightExceeds 3000 200 = true ∧ widthExceeds 4000 3000 300 200 = false ∧
      targetSize 4000 3000 300 200 = some (266, 200) := by
  decide

set_option maxRecDepth 100000 in
/-- C10: some original smaller than the box gets target dimensions larger than its own. For an
original of 16777219 by 1 pixels in the box 33554432 by 2, `sizeCopy` passes the width
16777220 to the resizer: the width grows in the conversion `float32(W)`, which keeps 24
significant bits. -/
theorem C10_target_exceeds_original :
    ∃ W H maxWidth maxHeight : Nat, W < maxWidth ∧ H < maxHeight ∧
      ∃ w h, targetSize W H maxWidth maxHeight = some (w, h) ∧ (W < w ∨ H < h) :=
  ⟨16777219, 1, 33554432, 2, by decide, by decide, 16777220, 1, by decide, Or.inl (by decide)⟩

set_option maxRecDepth 100000 in
/-- In that example neither scaling step is applied. -/
theorem targetSize_conversion_rounds :
    heightExceeds 1 2 = false ∧ widthExceeds 16777219 1 33554432 2 = false ∧
      targetSize 16777219 1 33554432 2 = some (16777220, 1) := by
  decide

/-- No original smaller than the box has either scaling step of `sizeCopy` applied to it. -/
theorem no_scaling_inside_box :
    ¬ ∃ W H maxWidth maxHeight : Nat, W < maxWidth ∧ H < maxHeight ∧
      (heightExceeds H maxHeight = true ∨ widthExceeds W H maxWidth maxHeight = true) := by
  rintro ⟨W, H, mw, mh, hW, hH, h⟩
  obtain ⟨h1, h2, -⟩ := fitBox_inside W H mw mh hW.le hH.le
  rw [h1, h2] at h
  simp at h

/-- For an original that fits the box, `W ≤ maxWidth` and `H ≤ maxHeight`, neither scaling
step of `sizeCopy` is applied, and when both sides are at most `2 ^ 24` the target dimensions
are the original's own. -/
theorem inside_box_unscaled (W H maxWidth maxHeight : Nat) (hW : W ≤ maxWidth)
    (hH : H ≤ maxHeight) :
    heightExceeds H maxHeight = false ∧ widthExceeds W H maxWidth maxHeight = false ∧
      (W ≤ 2 ^ 24 → H ≤ 2 ^ 24 → targetSize W H maxWidth maxHeight = some (W, H)) := by
  obtain ⟨h1, h2, h3⟩ := fitBox_inside W H maxWidth maxHeight hW hH
  refine ⟨h1, h2, fun hW24 hH24 => ?_⟩
  have n1 : ¬ ((maxWidth : Int) < 0 ∨ (maxHeight : Int) < 0) := by omega
  simp only [targetSize, if_neg n1, Int.toNat_ofNat, h3, toUint_ofNat, roundNat_exact hW24,
    roundNat_exact hH24]

/-- A 100x50 original in the box 300x200 keeps its dimensions. -/
theorem inside_box_unscaled_example :
    heightExceeds 50 200 = false ∧ widthExceeds 100 50 300 200 = false ∧
      targetSize 100 50 (300 : Nat) (200 : Nat) = some (100, 50) :=
  ⟨(inside_box_unscaled 100 50 300 200 (by decide) (by decide)).1,
    (inside_box_unscaled 100 50 300 200 (by decide) (by decide)).2.1,
    (inside_box_unscaled 100 50 300 200 (by decide) (by decide)).2.2 (by decide) (by decide)⟩

theorem two_zpow_toNat_div (s : Int) :
    ((2 : ℚ) ^ (-s).toNat) / (2 : ℚ) ^ s.toNat = (2 : ℚ) ^ (-s) := by
  rcases le_total 0 s with h | h
  · obtain ⟨k, rfl⟩ := Int.eq_ofNat_of_zero_le h
    have e1 : (-(k : Int)).toNat = 0 := by omega
    simp [e1, zpow_neg]
  · obtain ⟨k, hk⟩ := Int.eq_ofNat_of_zero_le (neg_nonneg.2 h)
    have e1 : s.toNat = 0 := by omega
    rw [hk, e1]
    simp

theorem two_zpow_toNat_mul (s : Int) :
    ((2 : ℚ) ^ s.toNat) / (2 : ℚ) ^ (-s).toNat = (2 : ℚ) ^ s := by
  have := two_zpow_toNat_div (-s)
  simpa using this

theorem fracExp_spec (n d : Nat) (hn : 0 < n) (hd : 0 < d) :
    (d : ℚ) * 2 ^ fracExp n d ≤ n ∧ (n : ℚ) < d * 2 ^ (fracExp n d + 1) := by
  have h2 : (0 : ℚ) < 2 := by norm_num
  have a1q : (n : ℚ) < 2 ^ bitLen n := by exact_mod_cast lt_two_pow_bitLen n
  have a2q : (2 : ℚ) ^ bitLen n ≤ 2 * n := by exact_mod_cast two_pow_bitLen_le n hn
  have b1q : (d : ℚ) < 2 ^ bitLen d := by exact_mod_cast lt_two_pow_bitLen d
  have b2q : (2 : ℚ) ^ bitLen d ≤ 2 * d := by exact_mod_cast two_pow_bitLen_le d hd
  have pa : (0 : ℚ) < 2 ^ bitLen n := by positivity
  have pb : (0 : ℚ) < 2 ^ bitLen d := by positivity
  have hn' : (0 : ℚ) < n := by exact_mod_cast hn
  have hd' : (0 : ℚ) < d := by exact_mod_cast hd
  have hK : (2 : ℚ) ^ ((bitLen n : Int) - bitLen d) * 2 ^ bitLen d = 2 ^ bitLen n := by
    rw [zpow_sub₀ h2.ne', zpow_natCast, zpow_natCast, div_mul_cancel₀ _ pb.ne']
  have pK : (0 : ℚ) < 2 ^ ((bitLen n : Int) - bitLen d) := zpow_pos h2 _
  unfold fracExp
  split_ifs with hc
  · have hcq : (d : ℚ) * 2 ^ bitLen n ≤ n * 2 ^ bitLen d := by exact_mod_cast hc
    rw [zpow_add₀ h2.ne', zpow_one]
    constructor
    · refine le_of_mul_le_mul_right ?_ pb
      rw [mul_assoc, hK]; exact hcq
    · refine lt_of_mul_lt_mul_right ?_ pb.le
      have e : (d : ℚ) * (2 ^ ((bitLen n : Int) - bitLen d) * 2) * 2 ^ bitLen d =
          2 * d * 2 ^ bitLen n := by rw [← hK]; ring
      rw [e]
      nlinarith
  · have hcq : (n : ℚ) * 2 ^ bitLen d < d * 2 ^ bitLen n := by exact_mod_cast not_le.1 hc
    have e : (bitLen n : Int) - bitLen d - 1 + 1 = (bitLen n : Int) - bitLen d := by ring
    rw [e, zpow_sub₀ h2.ne', zpow_one]
    constructor
    · refine le_of_mul_le_mul_right ?_ pb
      have e : (d : ℚ) * (2 ^ ((bitLen n : Int) - bitLen d) / 2) * 2 ^ bitLen d =
          d * 2 ^ bitLen n / 2 := by rw [← hK]; ring
      rw [e]
      nlinarith
    · refine lt_of_mul_lt_mul_right ?_ pb.le
      rw [mul_assoc, hK]; exact hcq

theorem roundHalfEven_le_of_cast_le {N D F : Nat} (hD : 0 < D) (h : (N : ℚ) / D ≤ F) :
    roundHalfEven N D ≤ F := by
  have hD' : (0 : ℚ) < D := by exact_mod_cast hD
  rw [div_le_iff₀ hD'] at h
  exact roundHalfEven_le_of_le_mul hD (by exact_mod_cast h)

theorem roundHalfEven_two_mul_le (N D : Nat) (hD : 0 < D) :
    2 * (roundHalfEven N D * D) ≤ 2 * N + D := by
  have h1 := Nat.div_add_mod N D
  have h2 := Nat.mod_lt N hD
  have e : (N / D + 1) * D = D * (N / D) + D := by ring
  have e' : N / D * D = D * (N / D) := by ring
  unfold roundHalfEven
  split_ifs <;> simp only [e, e'] <;> omega

theorem roundHalfEven_cast_le (N D : Nat) (hD : 0 < D) :
    (roundHalfEven N D : ℚ) ≤ N / D + 1 / 2 := by
  have hD' : (0 : ℚ) < D := by exact_mod_cast hD
  have h : (2 * (roundHalfEven N D * D) : ℚ) ≤ 2 * N + D := by
    exact_mod_cast roundHalfEven_two_mul_le N D hD
  have e : (N : ℚ) / D + 1 / 2 = (2 * N + D) / (2 * D) := by field_simp; ring
  rw [e, le_div_iff₀ (by positivity)]
  linarith

theorem round_zero (d : Nat) : F32.round 0 d = ⟨0, 0⟩ := by
  simp [F32.round]

theorem round_pos_eq (n d : Nat) (hn : 0 < n) :
    F32.round n d =
      ⟨roundHalfEven (n * 2 ^ (23 - fracExp n d).toNat) (d * 2 ^ (fracExp n d - 23).toNat),
        fracExp n d - 23⟩ := by
  simp [F32.round, Nat.pos_iff_ne_zero.1 hn]

theorem val_nonneg (a : F32) : 0 ≤ a.val := by
  unfold F32.val
  positivity

theorem scaled_ratio (n d : Nat) (hd : 0 < d) (k : Int) :
    ((n * 2 ^ (23 - k).toNat : Nat) : ℚ) / ((d * 2 ^ (k - 23).toNat : Nat) : ℚ) =
      (n : ℚ) / d / 2 ^ (k - 23) := by
  have hd' : (d : ℚ) ≠ 0 := by exact_mod_cast hd.ne'
  have h := two_zpow_toNat_div (k - 23)
  have e : -(k - 23) = 23 - k := by ring
  rw [e] at h
  have h2 : (0 : ℚ) < 2 := by norm_num
  push_cast
  rw [mul_div_mul_comm, h, ← e, zpow_neg, div_eq_mul_inv ((n : ℚ) / d)]

theorem scaled_bounds (n d : Nat) (hn : 0 < n) (hd : 0 < d) :
    (2 : ℚ) ^ 23 ≤ (n : ℚ) / d / 2 ^ (fracExp n d - 23) ∧
      (n : ℚ) / d / 2 ^ (fracExp n d - 23) < 2 ^ 24 := by
  have h2 : (0 : ℚ) < 2 := by norm_num
  have hd' : (0 : ℚ) < d := by exact_mod_cast hd
  obtain ⟨h1, h3⟩ := fracExp_spec n d hn hd
  have pu : (0 : ℚ) < 2 ^ (fracExp n d - 23) := zpow_pos h2 _
  have e1 : (2 : ℚ) ^ fracExp n d = 2 ^ 23 * 2 ^ (fracExp n d - 23) := by
    rw [zpow_sub₀ h2.ne']
    have : (2 : ℚ) ^ (23 : Int) = 2 ^ 23 := by norm_cast
    rw [this]
    field_simp
  have e2 : (2 : ℚ) ^ (fracExp n d + 1) = 2 ^ 24 * 2 ^ (fracExp n d - 23) := by
    rw [zpow_add₀ h2.ne', e1]; ring
  rw [e1] at h1
  rw [e2] at h3
  constructor
  · rw [le_div_iff₀ pu, le_div_iff₀ hd']
    linarith
  · rw [div_lt_iff₀ pu, div_lt_iff₀ hd']
    linarith

theorem round_m_le (n d : Nat) (hd : 0 < d) : (F32.round n d).m ≤ 2 ^ 24 := by
  rcases Nat.eq_zero_or_pos n with rfl | hn
  · rw [round_zero]; exact Nat.zero_le _
  rw [round_pos_eq n d hn]
  refine roundHalfEven_le_of_cast_le (by positivity) ?_
  rw [scaled_ratio n d hd]
  exact_mod_cast (scaled_bounds n d hn hd).2.le

theorem round_val_le_rel (n d : Nat) (hd : 0 < d) :
    (F32.round n d).val ≤ (n : ℚ) / d * (1 + 1 / 2 ^ 24) := by
  rcases Nat.eq_zero_or_pos n with rfl | hn
  · rw [round_zero]; simp [F32.val]
  have h2 : (0 : ℚ) < 2 := by norm_num
  have pu : (0 : ℚ) < 2 ^ (fracExp n d - 23) := zpow_pos h2 _
  obtain ⟨hb, -⟩ := scaled_bounds n d hn hd
  have hM := roundHalfEven_cast_le (n * 2 ^ (23 - fracExp n d).toNat)
    (d * 2 ^ (fracExp n d - 23).toNat) (by positivity)
  rw [scaled_ratio n d hd] at hM
  rw [round_pos_eq n d hn]
  simp only [F32.val]
  set y := (n : ℚ) / d / 2 ^ (fracExp n d - 23) with hy
  have hx : (n : ℚ) / d = y * 2 ^ (fracExp n d - 23) := by
    rw [hy, div_mul_cancel₀ _ pu.ne']
  rw [hx]
  have : ((roundHalfEven (n * 2 ^ (23 - fracExp n d).toNat)
      (d * 2 ^ (fracExp n d - 23).toNat) : Nat) : ℚ) ≤ y * (1 + 1 / 2 ^ 24) := by
    have : (1 : ℚ) / 2 ≤ y * (1 / 2 ^ 24) := by
      rw [mul_one_div, le_div_iff₀ (by positivity)]
      linarith
    linarith
  calc _ ≤ y * (1 + 1 / 2 ^ 24) * 2 ^ (fracExp n d - 23) :=
        mul_le_mul_of_nonneg_right this pu.le
    _ = _ := by ring

theorem round_val_le_of_le (n d : Nat) (hd : 0 < d) (f : F32) (hf : f.m ≤ 2 ^ 24)
    (h : (n : ℚ) / d ≤ f.val) : (F32.round n d).val ≤ f.val := by
  rcases Nat.eq_zero_or_pos n with rfl | hn
  · rw [round_zero]; simpa [F32.val] using val_nonneg f
  have h2 : (0 : ℚ) < 2 := by norm_num
  have pu : (0 : ℚ) < 2 ^ (fracExp n d - 23) := zpow_pos h2 _
  obtain ⟨hb, -⟩ := scaled_bounds n d hn hd
  rw [round_pos_eq n d hn]
  simp only [F32.val] at h ⊢
  rcases le_or_lt (fracExp n d - 23) f.e with he | he
  · obtain ⟨j, hj⟩ := Int.le.dest he
    have hfv : (f.m : ℚ) * 2 ^ f.e = ((f.m * 2 ^ j : Nat) : ℚ) * 2 ^ (fracExp n d - 23) := by
      rw [← hj, zpow_add₀ h2.ne', zpow_natCast]
      push_cast
      ring
    rw [hfv] at h ⊢
    refine mul_le_mul_of_nonneg_right ?_ pu.le
    have : roundHalfEven (n * 2 ^ (23 - fracExp n d).toNat) (d * 2 ^ (fracExp n d - 23).toNat) ≤
        f.m * 2 ^ j := by
      refine roundHalfEven_le_of_cast_le (by positivity) ?_
      rw [scaled_ratio n d hd, div_le_iff₀ pu]
      exact h
    exact_mod_cast this
  · have hfe : (2 : ℚ) ^ f.e * 2 ≤ 2 ^ (fracExp n d - 23) := by
      have : f.e + 1 ≤ fracExp n d - 23 := he
      calc (2 : ℚ) ^ f.e * 2 = 2 ^ (f.e + 1) := by rw [zpow_add₀ h2.ne', zpow_one]
        _ ≤ 2 ^ (fracExp n d - 23) := zpow_le_zpow_right₀ (by norm_num) this
    have hfm : (f.m : ℚ) ≤ 2 ^ 24 := by exact_mod_cast hf
    have hfv : (f.m : ℚ) * 2 ^ f.e ≤ 2 ^ 23 * 2 ^ (fracExp n d - 23) := by
      have p : (0 : ℚ) < 2 ^ f.e := zpow_pos h2 _
      calc (f.m : ℚ) * 2 ^ f.e ≤ 2 ^ 24 * 2 ^ f.e := mul_le_mul_of_nonneg_right hfm p.le
        _ = 2 ^ 23 * (2 ^ f.e * 2) := by ring
        _ ≤ 2 ^ 23 * 2 ^ (fracExp n d - 23) := mul_le_mul_of_nonneg_left hfe (by positivity)
    have hx : (2 : ℚ) ^ 23 * 2 ^ (fracExp n d - 23) ≤ (n : ℚ) / d := by
      rw [le_div_iff₀ pu] at hb; exact hb
    have hM : roundHalfEven (n * 2 ^ (23 - fracExp n d).toNat)
        (d * 2 ^ (fracExp n d - 23).toNat) ≤ 2 ^ 23 := by
      refine roundHalfEven_le_of_cast_le (by positivity) ?_
      rw [scaled_ratio n d hd, div_le_iff₀ pu]
      push_cast
      linarith
    have hMq : ((roundHalfEven (n * 2 ^ (23 - fracExp n d).toNat)
        (d * 2 ^ (fracExp n d - 23).toNat) : Nat) : ℚ) ≤ 2 ^ 23 := by exact_mod_cast hM
    calc _ ≤ (2 : ℚ) ^ 23 * 2 ^ (fracExp n d - 23) := mul_le_mul_of_nonneg_right hMq pu.le
      _ ≤ (n : ℚ) / d := hx
      _ ≤ _ := h

theorem toUint_le_val (a : F32) : (a.toUint : ℚ) ≤ a.val := by
  unfold F32.toUint F32.val
  calc ((a.m * 2 ^ a.e.toNat / 2 ^ (-a.e).toNat : Nat) : ℚ)
      ≤ ((a.m * 2 ^ a.e.toNat : Nat) : ℚ) / ((2 ^ (-a.e).toNat : Nat) : ℚ) := Nat.cast_div_le
    _ = a.m * ((2 : ℚ) ^ a.e.toNat / 2 ^ (-a.e).toNat) := by push_cast; ring
    _ = a.m * 2 ^ a.e := by rw [two_zpow_toNat_mul]

theorem toUint_le_of_val_le (a : F32) (n : Nat) (h : a.val ≤ n) : a.toUint ≤ n := by
  have := (toUint_le_val a).trans h
  exact_mod_cast this

theorem div_ratio (a b : F32) :
    ((a.m * 2 ^ (a.e - b.e).toNat : Nat) : ℚ) / ((b.m * 2 ^ (b.e - a.e).toNat : Nat) : ℚ) =
      a.val / b.val := by
  have h2 : (2 : ℚ) ≠ 0 := by norm_num
  have h := two_zpow_toNat_mul (a.e - b.e)
  have e : -(a.e - b.e) = b.e - a.e := by ring
  rw [e] at h
  unfold F32.val
  push_cast
  rw [mul_div_mul_comm, h, mul_div_mul_comm, zpow_sub₀ h2]

theorem mul_ratio (a b : F32) :
    ((a.m * b.m * 2 ^ (a.e + b.e).toNat : Nat) : ℚ) / ((2 ^ (-(a.e + b.e)).toNat : Nat) : ℚ) =
      a.val * b.val := by
  have h2 : (2 : ℚ) ≠ 0 := by norm_num
  have h := two_zpow_toNat_mul (a.e + b.e)
  unfold F32.val
  push_cast
  rw [mul_div_assoc, h, zpow_add₀ h2]
  ring

theorem val_pos_iff (a : F32) : 0 < a.val ↔ 0 < a.m := by
  have p : (0 : ℚ) < 2 ^ a.e := zpow_pos (by norm_num) _
  unfold F32.val
  constructor
  · intro h
    rcases Nat.eq_zero_or_pos a.m with h0 | h0
    · rw [h0] at h; simp at h
    · exact h0
  · intro h
    have : (0 : ℚ) < a.m := by exact_mod_cast h
    positivity

theorem div_m_le (a b : F32) (hb : 0 < b.m) : (a.div b).m ≤ 2 ^ 24 :=
  round_m_le _ _ (by positivity)

theorem mul_m_le (a b : F32) : (a.mul b).m ≤ 2 ^ 24 :=
  round_m_le _ _ (by positivity)

theorem ofNat_m_le (n : Nat) : (F32.ofNat n).m ≤ 2 ^ 24 :=
  round_m_le _ _ (by norm_num)

theorem div_val_le_rel (a b : F32) (hb : 0 < b.m) :
    (a.div b).val ≤ a.val / b.val * (1 + 1 / 2 ^ 24) := by
  have := round_val_le_rel (a.m * 2 ^ (a.e - b.e).toNat) (b.m * 2 ^ (b.e - a.e).toNat)
    (by positivity)
  rwa [div_ratio] at this

theorem mul_val_le_of_le (a b f : F32) (hf : f.m ≤ 2 ^ 24) (h : a.val * b.val ≤ f.val) :
    (a.mul b).val ≤ f.val := by
  refine round_val_le_of_le _ _ (by positivity) f hf ?_
  rwa [mul_ratio]

theorem val_gap (a b : F32) (ha : a.m ≤ 2 ^ 24) (hb : b.m ≤ 2 ^ 24) (h : a.val < b.val) :
    a.val * (1 + 1 / 2 ^ 24) ≤ b.val := by
  have h2 : (0 : ℚ) < 2 := by norm_num
  have key : ∀ (A B : Nat) (u : ℚ), 0 < u → A ≤ 2 ^ 24 → (A : ℚ) * u < B * u →
      (A : ℚ) * u * (1 + 1 / 2 ^ 24) ≤ B * u := by
    intro A B u hu hA hlt
    have h1 : (A : ℚ) < B := lt_of_mul_lt_mul_right hlt hu.le
    have h1' : A + 1 ≤ B := by exact_mod_cast h1
    have h3 : (A : ℚ) + 1 ≤ B := by exact_mod_cast h1'
    have h4 : (A : ℚ) ≤ 2 ^ 24 := by exact_mod_cast hA
    have h5 : (A : ℚ) * (1 + 1 / 2 ^ 24) ≤ B := by
      have : (A : ℚ) * (1 / 2 ^ 24) ≤ 1 := by
        rw [mul_one_div, div_le_one (by positivity)]; exact h4
      linarith
    calc (A : ℚ) * u * (1 + 1 / 2 ^ 24) = A * (1 + 1 / 2 ^ 24) * u := by ring
      _ ≤ B * u := mul_le_mul_of_nonneg_right h5 hu.le
  unfold F32.val at h ⊢
  rcases le_total a.e b.e with he | he
  · obtain ⟨j, hj⟩ := Int.le.dest he
    have eb : (b.m : ℚ) * 2 ^ b.e = ((b.m * 2 ^ j : Nat) : ℚ) * 2 ^ a.e := by
      rw [← hj, zpow_add₀ h2.ne', zpow_natCast]; push_cast; ring
    rw [eb] at h ⊢
    exact key a.m (b.m * 2 ^ j) _ (zpow_pos h2 _) ha h
  · obtain ⟨j, hj⟩ := Int.le.dest he
    have ea : (a.m : ℚ) * 2 ^ a.e = ((a.m * 2 ^ j : Nat) : ℚ) * 2 ^ b.e := by
      rw [← hj, zpow_add₀ h2.ne', zpow_natCast]; push_cast; ring
    rw [ea] at h ⊢
    have hlt : a.m * 2 ^ j < b.m := by
      have := lt_of_mul_lt_mul_right h (zpow_pos h2 _).le
      exact_mod_cast this
    exact key (a.m * 2 ^ j) b.m _ (zpow_pos h2 _) (by omega) h

theorem val_ofNat_exact {n : Nat} (h : n ≤ 2 ^ 24) : (F32.ofNat n).val = n := by
  rw [val_ofNat, roundNat_exact h]

theorem not_lt_val {a b : F32} (h : a.lt b = false) : b.val ≤ a.val := by
  rw [Bool.eq_false_iff, Ne, F32.lt_iff] at h
  exact not_lt.1 h

theorem fitHeight_bounds (W H maxHeight : Nat) (hmh : maxHeight ≤ 2 ^ 24) :
    (fitHeight W H maxHeight).2.val ≤ maxHeight ∧ (fitHeight W H maxHeight).1.m ≤ 2 ^ 24 ∧
      (fitHeight W H maxHeight).2.m ≤ 2 ^ 24 := by
  unfold fitHeight
  cases hc : heightExceeds H maxHeight with
  | true =>
    simp only [if_true]
    exact ⟨(val_ofNat_exact hmh).le, mul_m_le _ _, ofNat_m_le _⟩
  | false =>
    simp only [Bool.false_eq_true, if_false]
    have := not_lt_val hc
    rw [val_ofNat_exact hmh] at this
    exact ⟨this, ofNat_m_le _, ofNat_m_le _⟩

/-- The target stays within the box whenever both bounds are at most `2 ^ 24`, the largest
range in which every integer is a `float32`: `uint(w) ≤ maxWidth` and `uint(h) ≤ maxHeight`
for every original. -/
theorem fitBox_within (W H maxWidth maxHeight : Nat) (hmw : maxWidth ≤ 2 ^ 24)
    (hmh : maxHeight ≤ 2 ^ 24) :
    (fitBox W H maxWidth maxHeight).1.toUint ≤ maxWidth ∧
      (fitBox W H maxWidth maxHeight).2.toUint ≤ maxHeight := by
  obtain ⟨h1, h2, h3⟩ := fitHeight_bounds W H maxHeight hmh
  unfold fitBox
  cases hc : widthExceeds W H maxWidth maxHeight with
  | false =>
    simp only [Bool.false_eq_true, if_false]
    have := not_lt_val hc
    rw [val_ofNat_exact hmw] at this
    exact ⟨toUint_le_of_val_le _ _ this, toUint_le_of_val_le _ _ h1⟩
  | true =>
    simp only [if_true]
    refine ⟨by rw [toUint_ofNat, roundNat_exact hmw], ?_⟩
    have hlt : (F32.ofNat maxWidth).val < (fitHeight W H maxHeight).1.val :=
      (F32.lt_iff _ _).1 hc
    have hpos : 0 < (fitHeight W H maxHeight).1.val :=
      lt_of_le_of_lt (val_nonneg _) hlt
    have hm : 0 < (fitHeight W H maxHeight).1.m := (val_pos_iff _).1 hpos
    have hgap := val_gap _ _ (ofNat_m_le maxWidth) h2 hlt
    have hdiv := div_val_le_rel (fitHeight W H maxHeight).2 (fitHeight W H maxHeight).1 hm
    have hq : 0 ≤ (fitHeight W H maxHeight).2.val / (fitHeight W H maxHeight).1.val :=
      div_nonneg (val_nonneg _) hpos.le
    have hprod : ((fitHeight W H maxHeight).2.div (fitHeight W H maxHeight).1).val *
        (F32.ofNat maxWidth).val ≤ (fitHeight W H maxHeight).2.val := by
      calc ((fitHeight W H maxHeight).2.div (fitHeight W H maxHeight).1).val *
            (F32.ofNat maxWidth).val
          ≤ (fitHeight W H maxHeight).2.val / (fitHeight W H maxHeight).1.val *
              (1 + 1 / 2 ^ 24) * (F32.ofNat maxWidth).val :=
            mul_le_mul_of_nonneg_right hdiv (val_nonneg _)
        _ = (fitHeight W H maxHeight).2.val / (fitHeight W H maxHeight).1.val *
              ((F32.ofNat maxWidth).val * (1 + 1 / 2 ^ 24)) := by ring
        _ ≤ (fitHeight W H maxHeight).2.val / (fitHeight W H maxHeight).1.val *
              (fitHeight W H maxHeight).1.val := mul_le_mul_of_nonneg_left hgap hq
        _ = (fitHeight W H maxHeight).2.val := div_mul_cancel₀ _ hpos.ne'
    exact toUint_le_of_val_le _ _ ((mul_val_le_of_le _ _ _ h3 hprod).trans h1)

/-- For bounds from `0` to `2 ^ 24` the target dimensions are defined and within the box. -/
theorem targetSize_within_box (W H maxWidth maxHeight : Nat) (hmw : maxWidth ≤ 2 ^ 24)
    (hmh : maxHeight ≤ 2 ^ 24) :
    ∃ w h, targetSize W H maxWidth maxHeight = some (w, h) ∧ w ≤ maxWidth ∧ h ≤ maxHeight := by
  have n1 : ¬ ((maxWidth : Int) < 0 ∨ (maxHeight : Int) < 0) := by omega
  exact ⟨_, _, by simp only [targetSize, if_neg n1, Int.toNat_ofNat],
    fitBox_within W H maxWidth maxHeight hmw hmh⟩

theorem osOpen_write (fs : FS) (p : String) (data : List Nat) :
    (fs.write p data).osOpen p = .ok data := by
  simp [FS.osOpen, FS.write]

theorem sizeCopy_hit (lib : Lib) (cacheDir origPath : String) (maxWidth maxHeight : Int)
    (cap used : Nat) (fs : FS) (data : List Nat) (hfree : used < cap)
    (hopen : fs.osOpen (copyPath cacheDir origPath maxWidth maxHeight) = .ok data) :
    sizeCopy lib cacheDir origPath maxWidth maxHeight cap used fs =
      ⟨.returned (copyPath cacheDir origPath maxWidth maxHeight) none, fs, used,
        [.acquire, .osOpen (copyPath cacheDir origPath maxWidth maxHeight), .release]⟩ := by
  simp only [sizeCopy, if_neg (not_le.2 hfree), hopen]

/-- C6: if a call of `sizeCopy` returns the artifact path `a` with no error, then a second
call with the same arguments, made in the file system and with the limiter occupancy the first
call left, returns `a` with no error, leaves the file system as it is, and its only steps are
taking the slot, opening the artifact and giving the slot back: no `imgOpen`, no decoding, no
resizing, no file creation, no encoding. -/
theorem C6_second_call_is_hit (lib : Lib) (cacheDir origPath : String)
    (maxWidth maxHeight : Int) (cap used : Nat) (fs : FS) (a : String)
    (h : (sizeCopy lib cacheDir origPath maxWidth maxHeight cap used fs).outcome =
      .returned a none) :
    (sizeCopy lib cacheDir origPath maxWidth maxHeight cap
        (sizeCopy lib cacheDir origPath maxWidth maxHeight cap used fs).used
        (sizeCopy lib cacheDir origPath maxWidth maxHeight cap used fs).fs).outcome =
      .returned a none ∧
    (sizeCopy lib cacheDir origPath maxWidth maxHeight cap
        (sizeCopy lib cacheDir origPath maxWidth maxHeight cap used fs).used
        (sizeCopy lib cacheDir origPath maxWidth maxHeight cap used fs).fs).fs =
      (sizeCopy lib cacheDir origPath maxWidth maxHeight cap used fs).fs ∧
    (sizeCopy lib cacheDir origPath maxWidth maxHeight cap
        (sizeCopy lib cacheDir origPath maxWidth maxHeight cap used fs).used
        (sizeCopy lib cacheDir origPath maxWidth maxHeight cap used fs).fs).events =
      [.acquire, .osOpen a, .release] := by
  by_cases hfree : cap ≤ used
  · simp [sizeCopy, hfree] at h
  have hlt : used < cap := not_le.1 hfree
  cases hopen : fs.osOpen (copyPath cacheDir origPath maxWidth maxHeight) with
  | ok data =>
    rw [sizeCopy_hit lib cacheDir origPath maxWidth maxHeight cap used fs data hlt hopen] at h ⊢
    simp only [Outcome.returned.injEq, and_true] at h
    subst h
    rw [sizeCopy_hit lib cacheDir origPath maxWidth maxHeight cap used fs data hlt hopen]
    exact ⟨rfl, rfl, rfl⟩
  | error e =>
    cases e with
    | permission => simp [sizeCopy, hfree, hopen] at h
    | notExist =>
      cases himg : imgOpen lib fs origPath with
      | mk res evs =>
        cases res with
        | error err => simp [sizeCopy, hfree, hopen, himg] at h
        | ok img =>
          cases hts : targetSize img.dx img.dy maxWidth maxHeight with
          | none => simp [sizeCopy, hfree, hopen, himg, makeCopy, hts] at h
          | some wh =>
            cases hce : fs.createError (copyPath cacheDir origPath maxWidth maxHeight) with
            | some e => simp [sizeCopy, hfree, hopen, himg, makeCopy, hts, hce] at h
            | none =>
              have hr : sizeCopy lib cacheDir origPath maxWidth maxHeight cap used fs =
                  ⟨.returned (copyPath cacheDir origPath maxWidth maxHeight)
                      ((lib.jpegEncode (lib.resize wh.1 wh.2 img)).2.map GoError.codec),
                    fs.write (copyPath cacheDir origPath maxWidth maxHeight)
                      (lib.jpegEncode (lib.resize wh.1 wh.2 img)).1, used,
                    ([.acquire, .osOpen (copyPath cacheDir origPath maxWidth maxHeight),
                      .logMaking (copyPath cacheDir origPath maxWidth maxHeight) origPath] ++
                      evs) ++ [.resize wh.1 wh.2,
                        .osCreate (copyPath cacheDir origPath maxWidth maxHeight), .jpegEncode,
                        .release]⟩ := by
                simp only [sizeCopy, if_neg hfree, hopen, himg, makeCopy, hts, hce]
              rw [hr] at h ⊢
              simp only [Outcome.returned.injEq] at h
              obtain ⟨h1, -⟩ := h
              subst h1
              rw [sizeCopy_hit lib cacheDir origPath maxWidth maxHeight cap used _ _ hlt
                (osOpen_write fs _ _)]
              exact ⟨rfl, rfl, rfl⟩

set_option maxRecDepth 100000 in
/-- C6 (witness): the first call for `/photos/a.jpg` in the box 300x200 makes the artifact. -/
theorem C6_second_call_is_hit_witness :
    (sizeCopy demoLib "cache" "/photos/a.jpg" 300 200 1 0 demoFS).outcome =
      .returned "cache/6425d14d8f5391d58c8b235d9b1bdee833b1b536-300x200.jpg" none ∧
    (sizeCopy demoLib "cache" "/photos/a.jpg" 300 200 1
        (sizeCopy demoLib "cache" "/photos/a.jpg" 300 200 1 0 demoFS).used
        (sizeCopy demoLib "cache" "/photos/a.jpg" 300 200 1 0 demoFS).fs).events =
      [.acquire, .osOpen "cache/6425d14d8f5391d58c8b235d9b1bdee833b1b536-300x200.jpg", .release] :=
  ⟨by decide,
    (C6_second_call_is_hit demoLib "cache" "/photos/a.jpg" 300 200 1 0 demoFS
      "cache/6425d14d8f5391d58c8b235d9b1bdee833b1b536-300x200.jpg" (by decide)).2.2⟩

set_option maxRecDepth 100000 in
/-- C7 (counterexample): `/photos/b.bmp` has the extension `.bmp`, no artifact exists for it,
and `sizeCopy` returns the error of `os.Open` (the original does not exist), not the
unknown-extension error. The same happens for the empty path, which the handler of
`/{album}/img/{id}` passes on when `imagePath` does not know the identifier. -/
theorem C7_missing_original_open_error :
    demoLib.toLower (pathExt "/photos/b.bmp") = ".bmp" ∧
    demoFS.files (copyPath "cache" "/photos/b.bmp" 300 200) = none ∧
    (sizeCopy demoLib "cache" "/photos/b.bmp" 300 200 1 0 demoFS).outcome =
      .returned "" (some (.pathError "/photos/b.bmp" .notExist)) ∧
    demoLib.toLower (pathExt "") = "" ∧
    demoFS.files (copyPath "cache" "" 300 200) = none ∧
    (sizeCopy demoLib "cache" "" 300 200 1 0 demoFS).outcome =
      .returned "" (some (.pathError "" .notExist)) := by
  decide

/-- C7 (amended): when a slot of the limiter is free, no artifact exists yet and the
extension of the original, lower-cased, is none of `.jpg`, `.gif`, `.png`, `sizeCopy` returns
the unknown-extension error of `imgOpen` if `os.Open` can open the original, and the error of
`os.Open` if it cannot. Either way the original is opened but never decoded, nothing is
resized, created or encoded, and the file system is left as it is. -/
theorem C7_unknown_extension (lib : Lib) (cacheDir origPath : String)
    (maxWidth maxHeight : Int) (cap used : Nat) (fs : FS)
    (hfree : used < cap)
    (habsent : fs.files (copyPath cacheDir origPath maxWidth maxHeight) = none)
    (hext : lib.toLower (pathExt origPath) ∉ [".jpg", ".gif", ".png"]) :
    (∀ data, fs.osOpen origPath = .ok data →
      (sizeCopy lib cacheDir origPath maxWidth maxHeight cap used fs).outcome =
        .returned "" (some (.unknownExtension (pathExt origPath)))) ∧
    (∀ e, fs.osOpen origPath = .error e →
      (sizeCopy lib cacheDir origPath maxWidth maxHeight cap used fs).outcome =
        .returned "" (some (.pathError origPath e))) ∧
    (sizeCopy lib cacheDir origPath maxWidth maxHeight cap used fs).fs = fs ∧
    (sizeCopy lib cacheDir origPath maxWidth maxHeight cap used fs).events =
      [.acquire, .osOpen (copyPath cacheDir origPath maxWidth maxHeight),
        .logMaking (copyPath cacheDir origPath maxWidth maxHeight) origPath,
        .osOpen origPath, .release] := by
  have hmiss : fs.osOpen (copyPath cacheDir origPath maxWidth maxHeight) = .error .notExist := by
    simp [FS.osOpen, habsent]
  simp only [List.mem_cons, List.mem_singleton, List.not_mem_nil, or_false, not_or] at hext
  cases hopen : fs.osOpen origPath with
  | ok data =>
    have himg : imgOpen lib fs origPath =
        (.error (.unknownExtension (pathExt origPath)), [.osOpen origPath]) := by
      simp only [imgOpen, hopen, if_neg hext.1, if_neg hext.2.1, if_neg hext.2.2]
    have hr : sizeCopy lib cacheDir origPath maxWidth maxHeight cap used fs =
        ⟨.returned "" (some (.unknownExtension (pathExt origPath))), fs, used,
          [.acquire, .osOpen (copyPath cacheDir origPath maxWidth maxHeight),
            .logMaking (copyPath cacheDir origPath maxWidth maxHeight) origPath] ++
            [.osOpen origPath] ++ [.release]⟩ := by
      simp only [sizeCopy, if_neg (not_le.2 hfree), hmiss, himg]
    rw [hr]
    exact ⟨fun _ _ => rfl, fun e he => (by cases he), rfl, rfl⟩
  | error e =>
    have himg : imgOpen lib fs origPath =
        (.error (.pathError origPath e), [.osOpen origPath]) := by
      simp only [imgOpen, hopen]
    have hr : sizeCopy lib cacheDir origPath maxWidth maxHeight cap used fs =
        ⟨.returned "" (some (.pathError origPath e)), fs, used,
          [.acquire, .osOpen (copyPath cacheDir origPath maxWidth maxHeight),
            .logMaking (copyPath cacheDir origPath maxWidth maxHeight) origPath] ++
            [.osOpen origPath] ++ [.release]⟩ := by
      simp only [sizeCopy, if_neg (not_le.2 hfree), hmiss, himg]
    rw [hr]
    exact ⟨fun d hd => (by cases hd), fun e' he => (by cases he; rfl), rfl, rfl⟩

set_option maxRecDepth 100000 in
/-- C7 (witness): the readable file `/photos/a.bmp` gives the unknown-extension error, the
same file made unreadable gives the permission error of `os.Open`, and in both cases the file
system is left as it is. -/
theorem C7_unknown_extension_witness :
    (sizeCopy demoLib "cache" "/photos/a.bmp" 300 200 1 0 demoFS).outcome =
      .returned "" (some (.unknownExtension ".bmp")) ∧
    (sizeCopy demoLib "cache" "/photos/a.bmp" 300 200 1 0 demoFS).fs = demoFS ∧
    (sizeCopy demoLib "cache" "/photos/a.bmp" 300 200 1 0 lockedFS).outcome =
      .returned "" (some (.pathError "/photos/a.bmp" .permission)) ∧
    (sizeCopy demoLib "cache" "/photos/a.bmp" 300 200 1 0 lockedFS).fs = lockedFS :=
  ⟨(C7_unknown_extension demoLib "cache" "/photos/a.bmp" 300 200 1 0 demoFS
      (by decide) (by decide) (by decide)).1 [1, 2, 3] (by decide),
    (C7_unknown_extension demoLib "cache" "/photos/a.bmp" 300 200 1 0 demoFS
      (by decide) (by decide) (by decide)).2.2.1,
    (C7_unknown_extension demoLib "cache" "/photos/a.bmp" 300 200 1 0 lockedFS
      (by decide) (by decide) (by decide)).2.1 .permission (by decide),
    (C7_unknown_extension demoLib "cache" "/photos/a.bmp" 300 200 1 0 lockedFS
      (by decide) (by decide) (by decide)).2.2.1⟩

set_option maxRecDepth 100000 in
/-- C9 (counterexample): the artifact of `/photos/a.jpg` exists; with the one slot of the
limiter taken the call waits instead of returning the path, and with the slot free the call
takes it before it opens the artifact. -/
theorem C9_hit_waits_for_slot :
    hitFS.osOpen (copyPath "cache" "/photos/a.jpg" 300 200) = .ok [255, 216, 255] ∧
    (sizeCopy demoLib "cache" "/photos/a.jpg" 300 200 1 1 hitFS).outcome = .blocked ∧
    (sizeCopy demoLib "cache" "/photos/a.jpg" 300 200 1 0 hitFS).events =
      [.acquire, .osOpen "cache/6425d14d8f5391d58c8b235d9b1bdee833b1b536-300x200.jpg",
        .release] := by
  decide

/-- C9 (amended): `sizeCopy` takes a slot of the limiter on entry, before the existence check,
on every call. With every slot taken the call waits and does nothing else, whether or not the
artifact exists. With a slot free its first two steps are taking the slot and opening the
artifact path, its last step gives the slot back, and when the artifact exists those three
are all its steps and it returns the artifact path with the file system unchanged. -/
theorem C9_slot_taken_on_entry (lib : Lib) (cacheDir origPath : String)
    (maxWidth maxHeight : Int) (cap used : Nat) (fs : FS) :
    (cap ≤ used →
      (sizeCopy lib cacheDir origPath maxWidth maxHeight cap used fs).outcome = .blocked ∧
      (sizeCopy lib cacheDir origPath maxWidth maxHeight cap used fs).events = []) ∧
    (used < cap →
      (∃ rest, (sizeCopy lib cacheDir origPath maxWidth maxHeight cap used fs).events =
        .acquire :: .osOpen (copyPath cacheDir origPath maxWidth maxHeight) :: rest ++
          [.release]) ∧
      (sizeCopy lib cacheDir origPath maxWidth maxHeight cap used fs).used = used ∧
      ∀ data, fs.osOpen (copyPath cacheDir origPath maxWidth maxHeight) = .ok data →
        sizeCopy lib cacheDir origPath maxWidth maxHeight cap used fs =
          ⟨.returned (copyPath cacheDir origPath maxWidth maxHeight) none, fs, used,
            [.acquire, .osOpen (copyPath cacheDir origPath maxWidth maxHeight), .release]⟩) := by
  refine ⟨fun h => by simp [sizeCopy, h], fun hlt => ?_⟩
  have hfree : ¬ cap ≤ used := not_le.2 hlt
  refine ⟨?_, ?_, fun data hd => sizeCopy_hit lib cacheDir origPath maxWidth maxHeight cap used fs
    data hlt hd⟩
  · cases hopen : fs.osOpen (copyPath cacheDir origPath maxWidth maxHeight) with
    | ok data => exact ⟨[], by simp [sizeCopy, hfree, hopen]⟩
    | error e =>
      cases e with
      | permission => exact ⟨[], by simp [sizeCopy, hfree, hopen]⟩
      | notExist =>
        cases himg : imgOpen lib fs origPath with
        | mk res evs =>
          cases res with
          | error err =>
            exact ⟨.logMaking (copyPath cacheDir origPath maxWidth maxHeight) origPath :: evs,
              by simp [sizeCopy, hfree, hopen, himg]⟩
          | ok img =>
            cases hts : targetSize img.dx img.dy maxWidth maxHeight with
            | none =>
              exact ⟨.logMaking (copyPath cacheDir origPath maxWidth maxHeight) origPath :: evs,
                by simp [sizeCopy, hfree, hopen, himg, makeCopy, hts]⟩
            | some wh =>
              cases hce : fs.createError (copyPath cacheDir origPath maxWidth maxHeight) with
              | some e =>
                exact ⟨.logMaking (copyPath cacheDir origPath maxWidth maxHeight) origPath ::
                  evs ++ [.resize wh.1 wh.2,
                    .osCreate (copyPath cacheDir origPath maxWidth maxHeight)],
                  by simp [sizeCopy, hfree, hopen, himg, makeCopy, hts, hce]⟩
              | none =>
                exact ⟨.logMaking (copyPath cacheDir origPath maxWidth maxHeight) origPath ::
                  evs ++ [.resize wh.1 wh.2,
                    .osCreate (copyPath cacheDir origPath maxWidth maxHeight), .jpegEncode],
                  by simp [sizeCopy, hfree, hopen, himg, makeCopy, hts, hce]⟩
  · cases hopen : fs.osOpen (copyPath cacheDir origPath maxWidth maxHeight) with
    | ok data => simp [sizeCopy, hfree, hopen]
    | error e =>
      cases e with
      | permission => simp [sizeCopy, hfree, hopen]
      | notExist =>
        cases himg : imgOpen lib fs origPath with
        | mk res evs =>
          cases res with
          | error err => simp [sizeCopy, hfree, hopen, himg]
          | ok img =>
            cases hts : targetSize img.dx img.dy maxWidth maxHeight with
            | none => simp [sizeCopy, hfree, hopen, himg, makeCopy, hts]
            | some wh =>
              cases hce : fs.createError (copyPath cacheDir origPath maxWidth maxHeight) with
              | some e => simp [sizeCopy, hfree, hopen, himg, makeCopy, hts, hce]
              | none => simp [sizeCopy, hfree, hopen, himg, makeCopy, hts, hce]

theorem decRev_eq_digits (f n : Nat) (h : n ≤ f) : decRev f n = Nat.digits 10 n := by
  induction f generalizing n with
  | zero =>
    have : n = 0 := by omega
    subst this
    simp [decRev]
  | succ f ih =>
    by_cases hn : n = 0
    · subst hn; simp [decRev]
    · have hlt : n / 10 ≤ f := by omega
      simp only [decRev, hn, if_false]
      rw [ih _ hlt, Nat.digits_def' (by norm_num) (Nat.pos_of_ne_zero hn)]

theorem digitChar_injOn : ∀ a < 10, ∀ b < 10, Nat.digitChar a = Nat.digitChar b → a = b := by
  decide

theorem digitChar_ne_x : ∀ a < 10, Nat.digitChar a ≠ 'x' ∧ Nat.digitChar a ≠ '-' := by
  decide

theorem map_digitChar_inj : ∀ (l l' : List Nat), (∀ d ∈ l, d < 10) → (∀ d ∈ l', d < 10) →
    l.map Nat.digitChar = l'.map Nat.digitChar → l = l'
  | [], [], _, _, _ => rfl
  | [], _ :: _, _, _, h => by simp at h
  | _ :: _, [], _, _, h => by simp at h
  | a :: l, b :: l', h1, h2, h => by
    simp only [List.map_cons, List.cons.injEq] at h
    rw [digitChar_injOn a (h1 a (List.mem_cons_self _ _)) b (h2 b (List.mem_cons_self _ _)) h.1,
      map_digitChar_inj l l' (fun d hd => h1 d (List.mem_cons_of_mem _ hd))
        (fun d hd => h2 d (List.mem_cons_of_mem _ hd)) h.2]

theorem formatNat_pos (n : Nat) (h : n ≠ 0) :
    formatNat n = (Nat.digits 10 n).reverse.map Nat.digitChar := by
  simp [formatNat, h, decRev_eq_digits n n le_rfl]

theorem digits_rev_lt (n : Nat) : ∀ d ∈ (Nat.digits 10 n).reverse, d < 10 := fun d hd =>
  Nat.digits_lt_base (by norm_num) (List.mem_reverse.1 hd)

theorem formatNat_pos_ne_zero (m : Nat) (h : m ≠ 0) : formatNat m ≠ ['0'] := by
  intro he
  rw [formatNat_pos m h] at he
  have h0 : (['0'] : List Char) = [0].map Nat.digitChar := by decide
  rw [h0] at he
  have := map_digitChar_inj _ _ (digits_rev_lt m) (by simp) he
  have hd : Nat.digits 10 m = [0] := by
    have := congrArg List.reverse this
    simpa using this
  have := Nat.ofDigits_digits 10 m
  rw [hd] at this
  simp at this
  exact h this.symm

theorem formatNat_injective : Function.Injective formatNat := by
  intro n m h
  by_cases hn : n = 0
  · by_cases hm : m = 0
    · rw [hn, hm]
    · subst hn
      exact absurd h.symm (formatNat_pos_ne_zero m hm)
  · by_cases hm : m = 0
    · subst hm
      exact absurd h (formatNat_pos_ne_zero n hn)
    · rw [formatNat_pos n hn, formatNat_pos m hm] at h
      have := map_digitChar_inj _ _ (digits_rev_lt n) (digits_rev_lt m) h
      exact (Nat.digits_inj_iff).1 (List.reverse_injective this)

theorem formatNat_chars (n : Nat) : ∀ c ∈ formatNat n, c ≠ 'x' ∧ c ≠ '-' := by
  intro c hc
  by_cases hn : n = 0
  · subst hn
    have : c = '0' := by simpa [formatNat] using hc
    subst this
    decide
  · rw [formatNat_pos n hn] at hc
    obtain ⟨d, hd, rfl⟩ := List.mem_map.1 hc
    exact digitChar_ne_x d (digits_rev_lt n d hd)

theorem formatInt_injective : Function.Injective formatInt := by
  intro i j h
  unfold formatInt at h
  split_ifs at h with hi hj hj
  · have := formatNat_injective (List.cons.inj h).2
    omega
  · have hc := (formatNat_chars j.toNat _ (h ▸ List.mem_cons_self _ _)).2
    exact absurd rfl hc
  · have hc := (formatNat_chars i.toNat _ (h.symm ▸ List.mem_cons_self _ _)).2
    exact absurd rfl hc
  · have := formatNat_injective h
    omega

theorem x_not_mem_formatInt (i : Int) : 'x' ∉ formatInt i := by
  intro h
  unfold formatInt at h
  split_ifs at h
  · rcases List.mem_cons.1 h with h | h
    · exact absurd h (by decide)
    · exact (formatNat_chars _ _ h).1 rfl
  · exact (formatNat_chars _ _ h).1 rfl

theorem append_cons_inj {α : Type} {x : α} : ∀ {a a' r r' : List α}, x ∉ a → x ∉ a' →
    a ++ x :: r = a' ++ x :: r' → a = a' ∧ r = r'
  | [], [], _, _, _, _, h => ⟨rfl, (List.cons.inj h).2⟩
  | [], b :: a', _, _, _, h2, h => by
    simp only [List.nil_append, List.cons_append, List.cons.injEq] at h
    exact absurd (h.1 ▸ List.mem_cons_self _ _) h2
  | b :: a, [], _, _, h1, _, h => by
    simp only [List.nil_append, List.cons_append, List.cons.injEq] at h
    exact absurd (h.1 ▸ List.mem_cons_self _ _) h1
  | b :: a, c :: a', _, _, h1, h2, h => by
    simp only [List.cons_append, List.cons.injEq] at h
    obtain ⟨e1, e2⟩ := append_cons_inj (fun hx => h1 (List.mem_cons_of_mem _ hx))
      (fun hx => h2 (List.mem_cons_of_mem _ hx)) h.2
    exact ⟨by rw [h.1, e1], e2⟩

theorem hexDigit_injOn : ∀ a < 16, ∀ b < 16, hexDigit a = hexDigit b → a = b := by
  decide

theorem hexBytes_length (bs : List Nat) : (hexBytes bs).length = 2 * bs.length := by
  induction bs with
  | nil => rfl
  | cons b bs ih =>
    simp only [hexBytes, List.flatMap_cons, List.length_append, List.length_cons,
      List.length_nil] at ih ⊢
    omega

theorem hexBytes_inj : ∀ (l l' : List Nat), (∀ b ∈ l, b < 256) → (∀ b ∈ l', b < 256) →
    hexBytes l = hexBytes l' → l = l'
  | [], [], _, _, _ => rfl
  | [], _ :: _, _, _, h => by simp [hexBytes] at h
  | _ :: _, [], _, _, h => by simp [hexBytes] at h
  | a :: l, b :: l', h1, h2, h => by
    simp only [hexBytes, List.flatMap_cons, List.cons_append, List.nil_append,
      List.cons.injEq] at h
    have ha := h1 a (List.mem_cons_self _ _)
    have hb := h2 b (List.mem_cons_self _ _)
    have e1 := hexDigit_injOn (a / 16) (by omega) (b / 16) (by omega) h.1
    have e2 := hexDigit_injOn (a % 16) (by omega) (b % 16) (by omega) h.2.1
    have e : a = b := by omega
    rw [e, hexBytes_inj l l' (fun d hd => h1 d (List.mem_cons_of_mem _ hd))
      (fun d hd => h2 d (List.mem_cons_of_mem _ hd)) h.2.2]

theorem wordBytes_lt (w : Nat) : ∀ b ∈ wordBytes w, b < 256 := by
  intro b hb
  simp only [wordBytes, List.mem_cons, List.mem_singleton, List.not_mem_nil, or_false] at hb
  rcases hb with rfl | rfl | rfl | rfl <;> exact Nat.mod_lt _ (by norm_num)

theorem sha1Sum_lt (msg : List Nat) : ∀ b ∈ sha1Sum msg, b < 256 := by
  intro b hb
  simp only [sha1Sum, List.mem_append] at hb
  rcases hb with (((hb | hb) | hb) | hb) | hb <;> exact wordBytes_lt _ b hb

theorem sha1Sum_length (msg : List Nat) : (sha1Sum msg).length = 20 := by
  simp [sha1Sum, wordBytes]

theorem sha1Hex_length (p : String) : (sha1Hex p).length = 40 := by
  simp [sha1Hex, String.length, hexBytes_length, sha1Sum_length]

theorem copyPath_data (cacheDir origPath : String) (maxWidth maxHeight : Int) :
    (copyPath cacheDir origPath maxWidth maxHeight).data =
      cacheDir.data ++ '/' :: (hexBytes (sha1Sum (strBytes origPath)) ++
        '-' :: (formatInt maxWidth ++ 'x' :: (formatInt maxHeight ++ ['.', 'j', 'p', 'g']))) := by
  simp [copyPath, sha1Hex, String.data_append]

/-- C8: for a fixed cache directory the artifact path is a function of the original path and
the two bounds, the digest part of it is 40 characters long, and two artifact paths are equal
only if the SHA-1 digests of the original paths are equal, the widths are equal and the
heights are equal. -/
theorem C8_copyPath_injective (cacheDir p1 p2 : String) (w1 h1 w2 h2 : Int)
    (h : copyPath cacheDir p1 w1 h1 = copyPath cacheDir p2 w2 h2) :
    sha1Sum (strBytes p1) = sha1Sum (strBytes p2) ∧ w1 = w2 ∧ h1 = h2 ∧
      (sha1Hex p1).length = 40 := by
  have hd := congrArg String.data h
  rw [copyPath_data, copyPath_data] at hd
  have h1' := List.cons.inj (List.append_cancel_left hd)
  have hlen : (hexBytes (sha1Sum (strBytes p1))).length =
      (hexBytes (sha1Sum (strBytes p2))).length := by
    rw [hexBytes_length, hexBytes_length, sha1Sum_length, sha1Sum_length]
  obtain ⟨e1, e2⟩ := List.append_inj h1'.2 hlen
  obtain ⟨e3, e4⟩ := append_cons_inj (x_not_mem_formatInt w1) (x_not_mem_formatInt w2)
    (List.cons.inj e2).2
  exact ⟨hexBytes_inj _ _ (sha1Sum_lt _) (sha1Sum_lt _) e1, formatInt_injective e3,
    formatInt_injective (List.append_cancel_right e4), sha1Hex_length p1⟩

set_option maxRecDepth 100000 in
/-- C8 (witness): the artifact path of `/photos/a.jpg` in the box 300x200. -/
theorem C8_copyPath_injective_witness :
    copyPath "cache" "/photos/a.jpg" 300 200 =
        "cache/6425d14d8f5391d58c8b235d9b1bdee833b1b536-300x200.jpg" ∧
      sha1Sum (strBytes "/photos/a.jpg") = sha1Sum (strBytes "/photos/a.jpg") ∧
      (300 : Int) = 300 ∧ (200 : Int) = 200 ∧ (sha1Hex "/photos/a.jpg").length = 40 :=
  ⟨by decide, C8_copyPath_injective "cache" "/photos/a.jpg" "/photos/a.jpg" 300 200 300 200 rfl⟩

end Photos
